import Mathlib

/-
Verification development for the zk-geo-offline repository.

The constraint-system core (src/circuits/circuits/Utility.circom, Lines.circom,
PointInPolygon.circom) is embedded shallowly: every circom signal assignment
`s <== e` becomes a function computing the (unique) witness value of `s`, with
field arithmetic carried out on naturals below the BN254 scalar modulus `pBN`.
Circomlib primitives (Num2Bits, CompConstant, Sign, IsZero, IsEqual, LessThan,
LessEqThan, GreaterThan) are external library dependencies of the repository;
they are embedded through their documented input/output semantics, which at
every call site below coincides with their witness-generation behaviour.
Assertion constraints `a === b` are not part of the output functions; where a
claim is about satisfiability of such constraints they are modelled
relationally (quantifying over all values an adversarial prover could choose,
including non-canonical 254-bit decompositions).

The geometric reference notions (segment membership, segment intersection, the
textbook even-odd ray-crossing rule, polygon simplicity) are defined over ℤ/ℚ
exactly as the specification words them, and the embedded circuit functions are
proven equal to indicators of those notions.
-/

set_option maxRecDepth 8000
set_option exponentiation.threshold 400

/-- BN254 scalar field modulus (the prime underlying circom's default field). -/
def pBN : ℕ := 21888242871839275222246405745257275088548364400416034343698204186575808495617

/-- Constant used by circomlib's Sign template: `(pBN - 1) / 2`. -/
def halfBN : ℕ := (pBN - 1) / 2

/-- Fuel-based modular exponentiation, used to check Lucas primality
certificates for `pBN` by kernel evaluation. -/
def powModAux : ℕ → ℕ → ℕ → ℕ → ℕ
  | 0, _, _, n => 1 % n
  | fuel + 1, b, e, n =>
    if e = 0 then 1 % n
    else
      let h := powModAux fuel (b * b % n) (e / 2) n
      if e % 2 = 1 then h * b % n else h

/-- Modular exponentiation `b ^ e % n` (for exponents below `2 ^ 300`). -/
def powMod (b e n : ℕ) : ℕ := powModAux 300 b e n

/-- Field addition on canonical representatives. -/
def fadd (a b : ℕ) : ℕ := (a + b) % pBN

/-- Field subtraction on canonical representatives (callers keep `b < pBN`). -/
def fsub (a b : ℕ) : ℕ := (a + pBN - b) % pBN

/-- Field multiplication on canonical representatives. -/
def fmul (a b : ℕ) : ℕ := a * b % pBN

/-- Canonical field representative of an integer. -/
def intToF (z : ℤ) : ℕ := (z % (pBN : ℤ)).toNat

/-- Witness value of circomlib `IsZero` on a canonical input: the constraints
`out = 1 - in*inv` and `in*out = 0` force exactly this output. -/
def isZeroF (a : ℕ) : ℕ := if a = 0 then 1 else 0

/-- Witness value of circomlib `IsEqual`, which is `IsZero` on the difference. -/
def isEqualF (a b : ℕ) : ℕ := isZeroF (fsub a b)

/-- Output of circomlib `CompConstant ct` on the bit decomposition of value
`v`: 1 iff `v > ct`. -/
def compConstantF (ct v : ℕ) : ℕ := if ct < v then 1 else 0

/-- Witness value of `Comp ct` (Utility.circom): `Num2Bits(254)` of the
canonical input (below `pBN < 2^254`) fed into `CompConstant ct`. -/
def compF (ct a : ℕ) : ℕ := compConstantF ct a

/-- Output of circomlib `Sign` on the bit decomposition of value `v`:
1 iff `v > (p-1)/2`, i.e. iff `v` canonically represents a negative integer. -/
def signF (v : ℕ) : ℕ := if halfBN < v then 1 else 0

/-- Witness value of circomlib `LessThan k`: bit `k` of `a + 2^k - b`,
negated.  Faithful to the circuit whenever `b < 2^k`, which every call site
below guarantees through the range checks. -/
def lessThanF (k a b : ℕ) : ℕ := 1 - ((a + 2 ^ k - b) / 2 ^ k) % 2

/-- Witness value of circomlib `LessEqThan k`. -/
def lessEqThanF (k a b : ℕ) : ℕ := lessThanF k a (b + 1)

/-- Witness value of circomlib `GreaterThan k`. -/
def greaterThanF (k a b : ℕ) : ℕ := lessThanF k b a

/-- Witness values of `Order` (Utility.circom): an algebraic swap driven by
`GreaterThan`. -/
def orderF (k a b : ℕ) : ℕ × ℕ :=
  let gt := greaterThanF k a b
  (fadd (fmul (fsub b a) gt) a, fadd (fmul (fsub a b) gt) b)

/-- Witness value of `MultiplierN` (Utility.circom): the left-to-right chain
of `Multiplier2` components. -/
def multiplierNF : List ℕ → ℕ
  | [] => 1
  | h :: t => t.foldl fmul h

/-- Witness value of `Orientation` (Lines.circom).  The `grid_bits` parameter
only feeds the compile-time `assert(grid_bits <= 126)`. -/
def orientationF (p0 p1 p2 : ℕ × ℕ) : ℕ :=
  let part := fmul (fsub p1.2 p0.2) (fsub p2.1 p1.1)
  let f := fsub part (fmul (fsub p2.2 p1.2) (fsub p1.1 p0.1))
  let nonZero := fsub 1 (isZeroF f)
  fmul nonZero (signF f + 1)

/-- Witness value of `InRect` (Lines.circom). -/
def inRectF (gb : ℕ) (line : (ℕ × ℕ) × (ℕ × ℕ)) (point : ℕ × ℕ) : ℕ :=
  let ox := orderF gb line.1.1 line.2.1
  let oy := orderF gb line.1.2 line.2.2
  let aboveMinX := lessEqThanF gb ox.1 point.1
  let belowMaxX := lessEqThanF gb point.1 ox.2
  let on_x_projection := fmul aboveMinX belowMaxX
  let aboveMinY := lessEqThanF gb oy.1 point.2
  let belowMaxY := lessEqThanF gb point.2 oy.2
  let on_y_projection := fmul aboveMinY belowMaxY
  fmul on_x_projection on_y_projection

/-- Witness value of `OnSegment` (Lines.circom). -/
def onSegmentF (gb : ℕ) (line : (ℕ × ℕ) × (ℕ × ℕ)) (point : ℕ × ℕ) : ℕ :=
  fmul (isZeroF (orientationF line.1 line.2 point)) (inRectF gb line point)

/-- Witness value of `Intersects` (Lines.circom).  The non-degeneracy
equality-product constraints are assertions and are modelled separately
(`segNondegenSat`). -/
def intersectsF (gb : ℕ) (line1 line2 : (ℕ × ℕ) × (ℕ × ℕ)) : ℕ :=
  let o0 := orientationF line1.1 line1.2 line2.1
  let o1 := orientationF line1.1 line1.2 line2.2
  let o2 := orientationF line2.1 line2.2 line1.1
  let o3 := orientationF line2.1 line2.2 line1.2
  let r0 := inRectF gb line1 line2.1
  let r1 := inRectF gb line1 line2.2
  let r2 := inRectF gb line2 line1.1
  let r3 := inRectF gb line2 line1.2
  let general_intersection := fmul (fsub o0 o1) (fsub o2 o3)
  let ns0 := fsub (o0 + 1) r0
  let ns1 := fsub (o1 + 1) r1
  let ns2 := fsub (o2 + 1) r2
  let ns3 := fsub (o3 + 1) r3
  let no_special_case := fmul (fmul ns0 ns1) (fmul ns2 ns3)
  let not_out := fmul (isZeroF general_intersection) no_special_case
  isZeroF not_out

/-- Witness value of `RayTracing` (PointInPolygon.circom).  The range-check
assertions are modelled separately (`rtRangeChecksSat`). -/
def rayTracingF (n : ℕ) [NeZero n] (gb : ℕ) (point : ℕ × ℕ)
    (polygon : Fin n → ℕ × ℕ) : ℕ :=
  let mult := multiplierNF (List.ofFn fun i => fsub (polygon i).2 point.2)
  let not_on_vertex_line := fsub 1 (isZeroF mult)
  let counts := List.ofFn fun i : Fin n =>
    intersectsF gb ((0, point.2), (point.1, point.2)) (polygon i, polygon (i + 1))
  let intersection_count := counts.sum % pBN
  fmul (intersection_count % 2) not_on_vertex_line

/-- Vertex lookup with the cyclic index arithmetic of the source loops. -/
def vget (polygon : Fin 8 → ℕ × ℕ) (k : ℕ) : ℕ × ℕ := polygon ⟨k % 8, by omega⟩

/-- Index pairs enumerated by the `SimplePolygon` double loop for `n = 8`. -/
def nonAdjPairs : List (ℕ × ℕ) :=
  (List.range 8).flatMap fun i =>
    ((List.range 8).filter fun j =>
      decide (j ≠ i ∧ (j + 1) % 8 ≠ i ∧ (i + 1) % 8 ≠ j ∧ i < j)).map fun j => (i, j)

/-- Witness value of `SimplePolygon` (PointInPolygon.circom) for `n = 8`. -/
def simplePolygonF (gb : ℕ) (polygon : Fin 8 → ℕ × ℕ) : ℕ :=
  let hasNoIntersection := multiplierNF (nonAdjPairs.map fun ij =>
    fsub 1 (intersectsF gb (vget polygon ij.1, vget polygon (ij.1 + 1))
      (vget polygon ij.2, vget polygon (ij.2 + 1))))
  let notOnAnySegment := multiplierNF ((List.range 8).flatMap fun i =>
    [fsub 1 (onSegmentF gb (vget polygon i, vget polygon (i + 1)) (vget polygon (i + 2))),
     fsub 1 (onSegmentF gb (vget polygon (i + 1), vget polygon (i + 2)) (vget polygon i))])
  fmul notOnAnySegment hasNoIntersection

/-! Integer / rational reference geometry. -/

/-- Coordinates of a grid point as integers. -/
def zpt (a : ℕ × ℕ) : ℤ × ℤ := (a.1, a.2)

/-- The cross-product term computed by `Orientation` for points
`(points[0], points[1], points[2]) = (a, b, c)`, in exact integer
arithmetic. -/
def crossZ (a b c : ℤ × ℤ) : ℤ := (b.2 - a.2) * (c.1 - b.1) - (c.2 - b.2) * (b.1 - a.1)

/-- The orientation class encoding of the circuit: 0 = collinear,
1 = positive cross term, 2 = negative cross term. -/
def orientZ (a b c : ℤ × ℤ) : ℕ :=
  if crossZ a b c = 0 then 0 else if 0 < crossZ a b c then 1 else 2

/-- Closed axis-aligned bounding box membership. -/
def inBBoxZ (a b q : ℤ × ℤ) : Prop :=
  min a.1 b.1 ≤ q.1 ∧ q.1 ≤ max a.1 b.1 ∧ min a.2 b.2 ≤ q.2 ∧ q.2 ≤ max a.2 b.2

instance (a b q : ℤ × ℤ) : Decidable (inBBoxZ a b q) := by
  unfold inBBoxZ; infer_instance

/-- Integer point as a rational point. -/
def qp (a : ℤ × ℤ) : ℚ × ℚ := (a.1, a.2)

/-- Cross-product term of `crossZ` with a rational third point. -/
def sideQ (a b : ℤ × ℤ) (q : ℚ × ℚ) : ℚ :=
  ((b.2 : ℚ) - (a.2 : ℚ)) * (q.1 - (b.1 : ℚ)) - (q.2 - (b.2 : ℚ)) * ((b.1 : ℚ) - (a.1 : ℚ))

/-- The rational point at parameter `t` along the segment from `a` to `b`. -/
def pointOn (a b : ℤ × ℤ) (t : ℚ) : ℚ × ℚ :=
  ((a.1 : ℚ) + t * ((b.1 : ℚ) - (a.1 : ℚ)), (a.2 : ℚ) + t * ((b.2 : ℚ) - (a.2 : ℚ)))

/-- Membership of a rational point in the closed segment between two integer
points. -/
def memSegQ (a b : ℤ × ℤ) (q : ℚ × ℚ) : Prop :=
  ∃ t : ℚ, 0 ≤ t ∧ t ≤ 1 ∧
    q.1 = (a.1 : ℚ) + t * ((b.1 : ℚ) - (a.1 : ℚ)) ∧
    q.2 = (a.2 : ℚ) + t * ((b.2 : ℚ) - (a.2 : ℚ))

/-- Two closed segments share at least one (rational) point. -/
def segIntersectQ (a b c d : ℤ × ℤ) : Prop :=
  ∃ q : ℚ × ℚ, memSegQ a b q ∧ memSegQ c d q

/-- Stated from the specification for the refinement claims: the textbook
even-odd crossing test for one polygon edge against the horizontal ray cast
from `(0, point.y)` to `(point.x, point.y)` — the edge strictly straddles the
ray line and the crossing abscissa is at most `point.x`. -/
def rayCrossesEdge (point a b : ℤ × ℤ) : Prop :=
  ((a.2 < point.2 ∧ point.2 < b.2) ∨ (b.2 < point.2 ∧ point.2 < a.2)) ∧
    (a.1 : ℚ) + ((point.2 : ℚ) - (a.2 : ℚ)) / ((b.2 : ℚ) - (a.2 : ℚ)) * ((b.1 : ℚ) - (a.1 : ℚ))
      ≤ (point.1 : ℚ)

instance (point a b : ℤ × ℤ) : Decidable (rayCrossesEdge point a b) := by
  unfold rayCrossesEdge; infer_instance

/-- Stated from the specification for the refinement claim C1: the textbook
even-odd (ray-casting) point-in-polygon rule — the point is inside iff the
number of edges crossed by the horizontal ray is odd. -/
def textbookEvenOdd (n : ℕ) [NeZero n] (point : ℤ × ℤ) (polygon : Fin n → ℤ × ℤ) : Prop :=
  Odd (Finset.univ.filter fun i : Fin n =>
    rayCrossesEdge point (polygon i) (polygon (i + 1))).card

instance (n : ℕ) [NeZero n] (point : ℤ × ℤ) (polygon : Fin n → ℤ × ℤ) :
    Decidable (textbookEvenOdd n point polygon) := by
  unfold textbookEvenOdd
  infer_instance

/-- Edge `i` of an 8-gon, as integer endpoints. -/
def edgeZ (polygon : Fin 8 → ℕ × ℕ) (i : Fin 8) : (ℤ × ℤ) × (ℤ × ℤ) :=
  (zpt (polygon i), zpt (polygon (i + 1)))

/-- Edges `i` and `j` of an 8-gon share no endpoint. -/
def nonAdjacentEdges (i j : Fin 8) : Prop := i ≠ j ∧ i + 1 ≠ j ∧ j + 1 ≠ i

instance (i j : Fin 8) : Decidable (nonAdjacentEdges i j) := by
  unfold nonAdjacentEdges; infer_instance

/-- Stated from the specification for the refinement claim C6: the polygon is
simple — no two non-adjacent edges intersect and no vertex lies on an edge it
is not an endpoint of. -/
def simplePolygonProp (polygon : Fin 8 → ℕ × ℕ) : Prop :=
  (∀ i j : Fin 8, nonAdjacentEdges i j →
    ¬ segIntersectQ (edgeZ polygon i).1 (edgeZ polygon i).2
        (edgeZ polygon j).1 (edgeZ polygon j).2) ∧
  (∀ v e : Fin 8, v ≠ e → v ≠ e + 1 →
    ¬ memSegQ (edgeZ polygon e).1 (edgeZ polygon e).2 (qp (zpt (polygon v))))

/-! Relational models of the assertion constraints (`===`), quantifying over
every value an adversarial prover could supply for hint witnesses and bit
decompositions. -/

/-- All satisfying assignments of circomlib `IsZero` with input `a` and output
`out`: some inverse hint `inv` satisfies `out = 1 - a*inv` and `a*out = 0`. -/
def IsZeroRel (a out : ℕ) : Prop :=
  ∃ inv, inv < pBN ∧ out = fsub 1 (fmul a inv) ∧ fmul a out = 0

/-- All satisfying assignments of circomlib `IsEqual`. -/
def IsEqualRel (a b out : ℕ) : Prop := IsZeroRel (fsub a b) out

/-- All values representable by a satisfying `Num2Bits(254)` assignment for
input `a`: any `v < 2^254` congruent to `a` modulo `pBN`. -/
def Num2Bits254Rel (a v : ℕ) : Prop := v < 2 ^ 254 ∧ v % pBN = a % pBN

/-- Satisfiability of the `Comp (2^gb - 1)` range-check block
(`comp.in <== c; comp.out === 0`) against an adversarial prover. -/
def compCheckSat (gb c : ℕ) : Prop :=
  ∃ v, Num2Bits254Rel c v ∧ compConstantF (2 ^ gb - 1) v = 0

/-- Satisfiability of the `IsZero` vertex-x block
(`x_zero.in <== c; x_zero.out === 0`). -/
def nonzeroCheckSat (c : ℕ) : Prop := IsZeroRel c 0

/-- Satisfiability of all range-check and nonzero-x constraints of
`RayTracing` (PointInPolygon.circom lines 17-42). -/
def rtRangeChecksSat (n gb : ℕ) (point : ℕ × ℕ) (polygon : Fin n → ℕ × ℕ) : Prop :=
  (∀ i, compCheckSat gb (polygon i).1 ∧ nonzeroCheckSat (polygon i).1 ∧
    compCheckSat gb (polygon i).2) ∧
  compCheckSat gb point.1 ∧ compCheckSat gb point.2

/-- Satisfiability of the non-degeneracy equality-product constraints of
`Intersects` (Lines.circom lines 24-36) for one segment. -/
def segNondegenSat (l : (ℕ × ℕ) × (ℕ × ℕ)) : Prop :=
  ∃ e0 e1, IsEqualRel l.1.1 l.2.1 e0 ∧ IsEqualRel l.1.2 l.2.2 e1 ∧ fmul e0 e1 = 0

/-! Model of the client/verifier data flow (claim C3), from
src/client/src/main.ts, src/client/src/db.ts and the verify-proof.js CLI
script.  The IndexedDB round trip (`store.put` / `store.getAll`) is modelled
as the identity on stored records. -/

/-- A GNSS fix as captured in `proceedWithProof` (main.ts). -/
structure GnssFix where
  lat : ℚ
  lon : ℚ
  accuracy : ℚ
  timestamp : ℤ

/-- The record persisted by `saveGNSS(sessionId, {...gnssFix, proof,
publicSignals, polygonName, polygonHash})` (main.ts), and dumped verbatim by
`downloadAllProofs()` — the artifact the verify-proof.js CLI consumes. -/
structure StoredSession (Proof : Type) where
  session_id : String
  lat : ℚ
  lon : ℚ
  accuracy : ℚ
  timestamp : ℤ
  proof : Proof
  publicSignals : List String
  polygonName : String
  polygonHash : String

/-- The record built in `proceedWithProof` and handed to `saveGNSS`. -/
def savedRecord (Proof : Type) (sessionId : String) (fix : GnssFix) (proof : Proof)
    (publicSignals : List String) (polygonName polygonHash : String) :
    StoredSession Proof :=
  { session_id := sessionId, lat := fix.lat, lon := fix.lon,
    accuracy := fix.accuracy, timestamp := fix.timestamp, proof := proof,
    publicSignals := publicSignals, polygonName := polygonName,
    polygonHash := polygonHash }

/-- The payload written by `downloadAllProofs()` (main.ts): the stored records,
serialized verbatim. -/
def downloadAllProofsPayload (Proof : Type) (records : List (StoredSession Proof)) :
    List (StoredSession Proof) := records

/-- The fields the verify-proof.js CLI reads from a proof file: it prints
`proofData.lat, proofData.lon` as the location and verifies
`proofData.publicSignals` against `proofData.proof`. -/
def verifierReportedLocation (Proof : Type) (r : StoredSession Proof) : ℚ × ℚ :=
  (r.lat, r.lon)

/-- A concrete convex (hence simple) octagon on the 5-bit grid, used as a
test vector. -/
def octA : Fin 8 → ℕ × ℕ :=
  ![(2, 2), (16, 1), (30, 3), (31, 16), (29, 30), (15, 31), (1, 29), (1, 15)]

/-! Arithmetic groundwork: Lucas primality certificates for `pBN`. -/

theorem pBN_pos : 0 < pBN := by unfold pBN; norm_num

theorem powModAux_modEq (fuel : ℕ) :
    ∀ b e n : ℕ, e < 2 ^ fuel → powModAux fuel b e n ≡ b ^ e [MOD n] := by
  induction fuel with
  | zero =>
    intro b e n he
    interval_cases e
    simpa [powModAux] using (Nat.mod_modEq 1 n)
  | succ fuel ih =>
    intro b e n he
    by_cases he0 : e = 0
    · subst he0
      simpa [powModAux] using (Nat.mod_modEq 1 n)
    · have hdiv : e / 2 < 2 ^ fuel := by
        have h2 : (2 : ℕ) ^ (fuel + 1) = 2 * 2 ^ fuel := by ring
        omega
      have hh : powModAux fuel (b * b % n) (e / 2) n ≡ (b * b) ^ (e / 2) [MOD n] :=
        (ih (b * b % n) (e / 2) n hdiv).trans ((Nat.mod_modEq (b * b) n).pow _)
      have hbb : (b * b) ^ (e / 2) = b ^ (2 * (e / 2)) := by
        rw [two_mul, pow_add, ← mul_pow]
      rcases Nat.mod_two_eq_zero_or_one e with hpar | hpar
      · have hee : 2 * (e / 2) = e := by omega
        simpa [powModAux, he0, hpar, hbb, hee] using hh
      · have hee : 2 * (e / 2) + 1 = e := by omega
        have : powModAux fuel (b * b % n) (e / 2) n * b ≡ b ^ (2 * (e / 2)) * b [MOD n] := by
          exact Nat.ModEq.mul (hbb ▸ hh) Nat.ModEq.rfl
        have h2 : b ^ (2 * (e / 2)) * b = b ^ e := by
          rw [← pow_succ, hee]
        calc powModAux (fuel + 1) b e n
            = powModAux fuel (b * b % n) (e / 2) n * b % n := by
              simp [powModAux, he0, hpar]
          _ ≡ powModAux fuel (b * b % n) (e / 2) n * b [MOD n] := Nat.mod_modEq _ n
          _ ≡ b ^ e [MOD n] := h2 ▸ this

theorem powModAux_lt (fuel : ℕ) :
    ∀ b e n : ℕ, 1 < n → powModAux fuel b e n < n := by
  induction fuel with
  | zero => intro b e n hn; simpa [powModAux] using Nat.mod_lt _ (by omega)
  | succ fuel ih =>
    intro b e n hn
    by_cases he0 : e = 0
    · simpa [powModAux, he0] using Nat.mod_lt 1 (show 0 < n by omega)
    · rcases Nat.mod_two_eq_zero_or_one e with hpar | hpar
      · simpa [powModAux, he0, hpar] using ih (b * b % n) (e / 2) n hn
      · simpa [powModAux, he0, hpar] using Nat.mod_lt _ (show 0 < n by omega)

theorem prime_mem_of_dvd_prodPow (l : List (ℕ × ℕ))
    (hl : ∀ pe ∈ l, Nat.Prime pe.1) (q : ℕ) (hq : q.Prime)
    (h : q ∣ (l.map fun pe => pe.1 ^ pe.2).prod) : q ∈ l.map Prod.fst := by
  induction l with
  | nil =>
    simp only [List.map_nil, List.prod_nil, Nat.dvd_one] at h
    exact absurd h hq.ne_one
  | cons pe t ih =>
    simp only [List.map_cons, List.prod_cons] at h
    rcases (Nat.Prime.dvd_mul hq).mp h with h1 | h2
    · have hqpe : q = pe.1 :=
        (Nat.prime_dvd_prime_iff_eq hq (hl pe (List.mem_cons_self pe t))).mp
          (hq.dvd_of_dvd_pow h1)
      simp [hqpe]
    · have := ih (fun x hx => hl x (List.mem_cons_of_mem pe hx)) h2
      simp only [List.map_cons, List.mem_cons]
      exact Or.inr this

theorem lucas_cert (p a : ℕ) (l : List (ℕ × ℕ)) (hp : 2 ≤ p)
    (hfac : (l.map fun pe => pe.1 ^ pe.2).prod = p - 1)
    (hl : ∀ pe ∈ l, Nat.Prime pe.1)
    (hpow : powMod a (p - 1) p = 1)
    (hne : ∀ pe ∈ l, powMod a ((p - 1) / pe.1) p ≠ 1)
    (he : p - 1 < 2 ^ 300) : p.Prime := by
  have hp1 : 1 < p := by omega
  have key : ∀ e : ℕ, e < 2 ^ 300 → ((powMod a e p : ℕ) : ZMod p) = (a : ZMod p) ^ e := by
    intro e he'
    have h1 : powMod a e p ≡ a ^ e [MOD p] := powModAux_modEq 300 a e p he'
    calc ((powMod a e p : ℕ) : ZMod p) = ((a ^ e : ℕ) : ZMod p) :=
          (ZMod.natCast_eq_natCast_iff _ _ _).mpr h1
      _ = (a : ZMod p) ^ e := by push_cast; ring
  have ha : (a : ZMod p) ^ (p - 1) = 1 := by
    have := key (p - 1) he
    rw [hpow] at this
    simpa using this.symm
  refine lucas_primality p (a : ZMod p) ha ?_
  intro q hq hdvd
  intro heq
  have hmem : q ∈ l.map Prod.fst :=
    prime_mem_of_dvd_prodPow l hl q hq (by rw [hfac]; exact hdvd)
  obtain ⟨pe, hpe, hfst⟩ := List.mem_map.mp hmem
  refine hne pe hpe ?_
  rw [hfst]
  have hlt : (p - 1) / q < 2 ^ 300 := lt_of_le_of_lt (Nat.div_le_self _ _) he
  have hkey := key ((p - 1) / q) hlt
  rw [heq] at hkey
  have hval : powMod a ((p - 1) / q) p < p := powModAux_lt 300 a _ p hp1
  have : ((powMod a ((p - 1) / q) p : ℕ) : ZMod p) = ((1 : ℕ) : ZMod p) := by
    simpa using hkey
  have hmod : powMod a ((p - 1) / q) p % p = 1 % p :=
    (ZMod.natCast_eq_natCast_iff _ _ _).mp this
  rw [Nat.mod_eq_of_lt hval, Nat.mod_eq_of_lt hp1] at hmod
  exact hmod

theorem prime_12048837557 : Nat.Prime 12048837557 := by
  apply lucas_cert 12048837557 2 [(2, 2), (7, 2), (661, 1), (93001, 1)]
  · norm_num
  · decide
  · intro pe hpe
    fin_cases hpe <;> norm_num
  · decide
  · intro pe hpe
    fin_cases hpe <;> decide
  · decide

theorem prime_405928799 : Nat.Prime 405928799 := by
  apply lucas_cert 405928799 22 [(2, 1), (11, 1), (3691, 1), (4999, 1)]
  · norm_num
  · decide
  · intro pe hpe
    fin_cases hpe
    · norm_num
    · norm_num
    · norm_num
    · norm_num
  · decide
  · intro pe hpe
    fin_cases hpe <;> decide
  · decide

theorem prime_1593227 : Nat.Prime 1593227 := by
  apply lucas_cert 1593227 2 [(2, 1), (19, 1), (41927, 1)]
  · norm_num
  · decide
  · intro pe hpe
    fin_cases hpe
    · norm_num
    · norm_num
    · norm_num
  · decide
  · intro pe hpe
    fin_cases hpe <;> decide
  · decide

theorem prime_639533339 : Nat.Prime 639533339 := by
  apply lucas_cert 639533339 2 [(2, 1), (229, 1), (853, 1), (1637, 1)]
  · norm_num
  · decide
  · intro pe hpe
    fin_cases hpe
    · norm_num
    · norm_num
    · norm_num
    · norm_num
  · decide
  · intro pe hpe
    fin_cases hpe <;> decide
  · decide

theorem prime_5156902474397 : Nat.Prime 5156902474397 := by
  apply lucas_cert 5156902474397 2 [(2, 2), (107, 1), (12048837557, 1)]
  · norm_num
  · decide
  · intro pe hpe
    fin_cases hpe
    · norm_num
    · norm_num
    · exact prime_12048837557
  · decide
  · intro pe hpe
    fin_cases hpe <;> decide
  · decide

theorem prime_1670836401704629 : Nat.Prime 1670836401704629 := by
  apply lucas_cert 1670836401704629 2 [(2, 2), (3, 4), (5156902474397, 1)]
  · norm_num
  · decide
  · intro pe hpe
    fin_cases hpe
    · norm_num
    · norm_num
    · exact prime_5156902474397
  · decide
  · intro pe hpe
    fin_cases hpe <;> decide
  · decide

theorem prime_65865678001877903 : Nat.Prime 65865678001877903 := by
  apply lucas_cert 65865678001877903 5 [(2, 1), (83, 1), (379, 1), (1637, 1), (639533339, 1)]
  · norm_num
  · decide
  · intro pe hpe
    fin_cases hpe
    · norm_num
    · norm_num
    · norm_num
    · norm_num
    · exact prime_639533339
  · decide
  · intro pe hpe
    fin_cases hpe <;> decide
  · decide

theorem prime_13818364434197438864469338081 : Nat.Prime 13818364434197438864469338081 := by
  apply lucas_cert 13818364434197438864469338081 3 [(2, 5), (5, 1), (823, 1), (1593227, 1), (65865678001877903, 1)]
  · norm_num
  · decide
  · intro pe hpe
    fin_cases hpe
    · norm_num
    · norm_num
    · norm_num
    · exact prime_1593227
    · exact prime_65865678001877903
  · decide
  · intro pe hpe
    fin_cases hpe <;> decide
  · decide

theorem pBN_prime : Nat.Prime pBN := by
  have h : pBN = 21888242871839275222246405745257275088548364400416034343698204186575808495617 := rfl
  rw [h]
  apply lucas_cert _ 5 [(2, 28), (3, 2), (13, 1), (29, 1), (983, 1), (11003, 1), (237073, 1), (405928799, 1), (1670836401704629, 1), (13818364434197438864469338081, 1)]
  · norm_num
  · decide
  · intro pe hpe
    fin_cases hpe
    · norm_num
    · norm_num
    · norm_num
    · norm_num
    · norm_num
    · norm_num
    · norm_num
    · exact prime_405928799
    · exact prime_1670836401704629
    · exact prime_13818364434197438864469338081
  · decide
  · intro pe hpe
    fin_cases hpe <;> decide
  · decide

/-! Field arithmetic bridge lemmas. -/

theorem pBN_gt_one : 1 < pBN := by unfold pBN; norm_num

theorem two_pow_126_lt_pBN : 2 ^ 126 < pBN := by decide

theorem pBN_lt_two_pow_254 : pBN < 2 ^ 254 := by decide

theorem two_pow_254_lt_two_pBN : 2 ^ 254 < 2 * pBN := by decide

theorem intToF_lt (z : ℤ) : intToF z < pBN := by
  unfold intToF
  have h1 : 0 ≤ z % (pBN : ℤ) := Int.emod_nonneg z (by exact_mod_cast pBN_pos.ne.symm)
  have h2 : z % (pBN : ℤ) < (pBN : ℤ) := Int.emod_lt_of_pos z (by exact_mod_cast pBN_pos)
  omega

theorem intToF_cast (z : ℤ) : (intToF z : ℤ) = z % (pBN : ℤ) := by
  unfold intToF
  exact Int.toNat_of_nonneg (Int.emod_nonneg z (by exact_mod_cast pBN_pos.ne.symm))

theorem intToF_natCast (a : ℕ) (h : a < pBN) : intToF (a : ℤ) = a := by
  unfold intToF
  rw [Int.emod_eq_of_lt (by positivity) (by exact_mod_cast h)]
  simp

theorem intToF_congr {x y : ℤ} (h : x % (pBN : ℤ) = y % (pBN : ℤ)) : intToF x = intToF y := by
  unfold intToF; rw [h]

theorem fsub_eq_intToF (a b : ℕ) (ha : a < pBN) (hb : b < pBN) :
    fsub a b = intToF ((a : ℤ) - (b : ℤ)) := by
  simp only [fsub, intToF, pBN] at *
  omega

theorem fadd_intToF (x y : ℤ) : fadd (intToF x) (intToF y) = intToF (x + y) := by
  have h : ((fadd (intToF x) (intToF y) : ℕ) : ℤ) = ((intToF (x + y) : ℕ) : ℤ) := by
    unfold fadd
    push_cast
    rw [intToF_cast, intToF_cast, intToF_cast]
    exact (Int.add_emod x y _).symm
  exact_mod_cast h

theorem fmul_intToF (x y : ℤ) : fmul (intToF x) (intToF y) = intToF (x * y) := by
  have h : ((fmul (intToF x) (intToF y) : ℕ) : ℤ) = ((intToF (x * y) : ℕ) : ℤ) := by
    unfold fmul
    push_cast
    rw [intToF_cast, intToF_cast, intToF_cast, ← Int.mul_emod]
  exact_mod_cast h

theorem fsub_intToF (x y : ℤ) : fsub (intToF x) (intToF y) = intToF (x - y) := by
  rw [fsub_eq_intToF _ _ (intToF_lt x) (intToF_lt y)]
  apply intToF_congr
  rw [intToF_cast, intToF_cast, Int.sub_emod, Int.emod_emod_of_dvd _ (dvd_refl _),
    Int.emod_emod_of_dvd _ (dvd_refl _), ← Int.sub_emod]

theorem intToF_eq_zero_iff (z : ℤ) : intToF z = 0 ↔ (pBN : ℤ) ∣ z := by
  unfold intToF
  rw [Int.dvd_iff_emod_eq_zero]
  have h1 : 0 ≤ z % (pBN : ℤ) := Int.emod_nonneg z (by exact_mod_cast pBN_pos.ne.symm)
  omega

theorem intToF_eq_zero_small {z : ℤ} (h : |z| < (pBN : ℤ)) : intToF z = 0 ↔ z = 0 := by
  rw [intToF_eq_zero_iff]
  constructor
  · intro hd
    exact Int.eq_zero_of_abs_lt_dvd hd h
  · rintro rfl; exact dvd_zero _

/-! Consequences of primality, and characterizations of the comparator
gadgets. -/

theorem fsub_lt (a b : ℕ) : fsub a b < pBN := Nat.mod_lt _ pBN_pos

theorem fadd_lt (a b : ℕ) : fadd a b < pBN := Nat.mod_lt _ pBN_pos

theorem fmul_lt (a b : ℕ) : fmul a b < pBN := Nat.mod_lt _ pBN_pos

theorem fmul_zero_right (a : ℕ) : fmul a 0 = 0 := by simp [fmul]

theorem fmul_zero_left (a : ℕ) : fmul 0 a = 0 := by simp [fmul]

theorem fmul_one_right {a : ℕ} (h : a < pBN) : fmul a 1 = a := by
  simp [fmul, Nat.mod_eq_of_lt h]

theorem fmul_one_one : fmul 1 1 = 1 := fmul_one_right pBN_gt_one

theorem fadd_zero_left {a : ℕ} (h : a < pBN) : fadd 0 a = a := by
  simp [fadd, Nat.mod_eq_of_lt h]

theorem fsub_self_one : fsub 1 1 = 0 := by
  show (1 + pBN - 1) % pBN = 0
  simp

theorem fsub_one_zero : fsub 1 0 = 1 := by
  show (1 + pBN - 0) % pBN = 1
  rw [Nat.sub_zero, Nat.add_mod_right]
  exact Nat.mod_eq_of_lt pBN_gt_one

theorem fmul_eq_zero_iff {a b : ℕ} (ha : a < pBN) (hb : b < pBN) :
    fmul a b = 0 ↔ a = 0 ∨ b = 0 := by
  unfold fmul
  constructor
  · intro h
    have hd : pBN ∣ a * b := Nat.dvd_of_mod_eq_zero h
    rcases (Nat.Prime.dvd_mul pBN_prime).mp hd with h1 | h1
    · exact Or.inl (Nat.eq_zero_of_dvd_of_lt h1 ha)
    · exact Or.inr (Nat.eq_zero_of_dvd_of_lt h1 hb)
  · rintro (rfl | rfl) <;> simp

theorem exists_fmul_inv {a : ℕ} (ha : a < pBN) (h0 : a ≠ 0) :
    ∃ b, b < pBN ∧ fmul a b = 1 := by
  refine ⟨a ^ (pBN - 2) % pBN, Nat.mod_lt _ pBN_pos, ?_⟩
  have hco : Nat.Coprime a pBN := by
    rw [Nat.coprime_comm]
    exact (Nat.Prime.coprime_iff_not_dvd pBN_prime).mpr
      (fun hdvd => h0 (Nat.eq_zero_of_dvd_of_lt hdvd ha))
  have heuler : a ^ (pBN - 1) ≡ 1 [MOD pBN] := by
    have := Nat.ModEq.pow_totient hco
    rwa [Nat.totient_prime pBN_prime] at this
  have hpow : a * a ^ (pBN - 2) = a ^ (pBN - 1) := by
    have h2 : pBN - 2 + 1 = pBN - 1 := by
      have := pBN_gt_one; omega
    rw [mul_comm, ← pow_succ, h2]
  calc fmul a (a ^ (pBN - 2) % pBN) = a * a ^ (pBN - 2) % pBN :=
        Nat.ModEq.mul_left a (Nat.mod_modEq _ _)
    _ = a ^ (pBN - 1) % pBN := by rw [hpow]
    _ = 1 % pBN := heuler
    _ = 1 := Nat.mod_eq_of_lt pBN_gt_one

theorem isZeroRel_iff {a out : ℕ} (ha : a < pBN) : IsZeroRel a out ↔ out = isZeroF a := by
  constructor
  · rintro ⟨inv, hinv, hout, hprod⟩
    by_cases h0 : a = 0
    · subst h0
      rw [fmul_zero_left, fsub_one_zero] at hout
      simp [hout, isZeroF]
    · have hlt : out < pBN := by
        rw [hout]; exact fsub_lt _ _
      rcases (fmul_eq_zero_iff ha hlt).mp hprod with h | h
      · exact absurd h h0
      · simp [h, isZeroF, h0]
  · intro hout
    by_cases h0 : a = 0
    · subst h0
      refine ⟨0, pBN_pos, ?_, ?_⟩
      · rw [fmul_zero_left, fsub_one_zero]; simpa [isZeroF] using hout
      · rw [fmul_zero_left]
    · obtain ⟨b, hb, hab⟩ := exists_fmul_inv ha h0
      refine ⟨b, hb, ?_, ?_⟩
      · rw [hab, fsub_self_one]; simpa [isZeroF, h0] using hout
      · simp [isZeroF, h0] at hout
        rw [hout, fmul_zero_right]

theorem lessThanF_eq (k a b : ℕ) (ha : a < 2 ^ k) (hb : b ≤ 2 ^ k) :
    lessThanF k a b = if a < b then 1 else 0 := by
  unfold lessThanF
  rcases lt_or_le a b with h | h
  · rw [Nat.div_eq_of_lt (by omega : a + 2 ^ k - b < 2 ^ k)]
    simp [h]
  · have h1 : a + 2 ^ k - b = (a - b) + 2 ^ k := by omega
    have h2 : (0 : ℕ) < 2 ^ k := Nat.pos_pow_of_pos k (by norm_num)
    rw [h1, Nat.add_div_right _ h2, Nat.div_eq_of_lt (by omega : a - b < 2 ^ k)]
    simp [Nat.not_lt.mpr h]

theorem lessEqThanF_eq (k a b : ℕ) (ha : a < 2 ^ k) (hb : b < 2 ^ k) :
    lessEqThanF k a b = if a ≤ b then 1 else 0 := by
  unfold lessEqThanF
  rw [lessThanF_eq k a (b + 1) ha (by omega)]
  by_cases h : a ≤ b <;> simp [h, Nat.lt_succ_iff]

theorem greaterThanF_eq (k a b : ℕ) (ha : a < 2 ^ k) (hb : b < 2 ^ k) :
    greaterThanF k a b = if b < a then 1 else 0 :=
  lessThanF_eq k b a hb (le_of_lt ha)

theorem two_pow_lt_pBN {k : ℕ} (hk : k ≤ 126) : 2 ^ k < pBN :=
  lt_of_le_of_lt (Nat.pow_le_pow_right (by norm_num) hk) two_pow_126_lt_pBN

theorem orderF_eq (k a b : ℕ) (hk : k ≤ 126) (ha : a < 2 ^ k) (hb : b < 2 ^ k) :
    orderF k a b = (min a b, max a b) := by
  have hpa : a < pBN := lt_trans ha (two_pow_lt_pBN hk)
  have hpb : b < pBN := lt_trans hb (two_pow_lt_pBN hk)
  unfold orderF
  rw [greaterThanF_eq k a b ha hb]
  by_cases h : b < a
  · simp only [h, if_true]
    rw [fmul_one_right (fsub_lt _ _), fmul_one_right (fsub_lt _ _),
      fsub_eq_intToF b a hpb hpa, fsub_eq_intToF a b hpa hpb]
    have h1 : fadd (intToF ((b : ℤ) - a)) a = b := by
      rw [show (a : ℕ) = intToF (a : ℤ) from (intToF_natCast a hpa).symm, fadd_intToF]
      rw [intToF_natCast a hpa]
      have : (b : ℤ) - a + a = (b : ℤ) := by ring
      rw [this, intToF_natCast b hpb]
    have h2 : fadd (intToF ((a : ℤ) - b)) b = a := by
      rw [show (b : ℕ) = intToF (b : ℤ) from (intToF_natCast b hpb).symm, fadd_intToF]
      rw [intToF_natCast b hpb]
      have : (a : ℤ) - b + b = (a : ℤ) := by ring
      rw [this, intToF_natCast a hpa]
    rw [h1, h2]
    have hmin : min a b = b := by omega
    have hmax : max a b = a := by omega
    rw [hmin, hmax]
  · simp only [h, if_false]
    rw [fmul_zero_right, fmul_zero_right, fadd_zero_left hpa, fadd_zero_left hpb]
    have hmin : min a b = a := by omega
    have hmax : max a b = b := by omega
    rw [hmin, hmax]

theorem fmul_indicator (P Q : Prop) [Decidable P] [Decidable Q] :
    fmul (if P then 1 else 0) (if Q then 1 else 0) = if P ∧ Q then 1 else 0 := by
  by_cases hP : P <;> by_cases hQ : Q <;>
    simp [hP, hQ, fmul_one_one, fmul_zero_right, fmul_zero_left]

theorem inRectF_eq (gb : ℕ) (hgb : gb ≤ 126) (A B P : ℕ × ℕ)
    (hA1 : A.1 < 2 ^ gb) (hA2 : A.2 < 2 ^ gb) (hB1 : B.1 < 2 ^ gb)
    (hB2 : B.2 < 2 ^ gb) (hP1 : P.1 < 2 ^ gb) (hP2 : P.2 < 2 ^ gb) :
    inRectF gb (A, B) P = if inBBoxZ (zpt A) (zpt B) (zpt P) then 1 else 0 := by
  unfold inRectF
  simp only
  rw [orderF_eq gb A.1 B.1 hgb hA1 hB1, orderF_eq gb A.2 B.2 hgb hA2 hB2]
  simp only
  rw [lessEqThanF_eq gb _ _ (by omega : min A.1 B.1 < 2 ^ gb) hP1,
    lessEqThanF_eq gb _ _ hP1 (by omega : max A.1 B.1 < 2 ^ gb),
    lessEqThanF_eq gb _ _ (by omega : min A.2 B.2 < 2 ^ gb) hP2,
    lessEqThanF_eq gb _ _ hP2 (by omega : max A.2 B.2 < 2 ^ gb),
    fmul_indicator, fmul_indicator, fmul_indicator]
  congr 1
  have : inBBoxZ (zpt A) (zpt B) (zpt P) ↔
      ((min A.1 B.1 ≤ P.1 ∧ P.1 ≤ max A.1 B.1) ∧ (min A.2 B.2 ≤ P.2 ∧ P.2 ≤ max A.2 B.2)) := by
    unfold inBBoxZ zpt
    simp only
    constructor
    · intro h; omega
    · intro h; omega
  simp [this]
theorem shoelace_le (M x0 y0 x1 y1 x2 y2 : ℤ)
    (hx0 : 0 ≤ x0) (hx0M : x0 ≤ M) (hy0 : 0 ≤ y0) (hy0M : y0 ≤ M)
    (hx1 : 0 ≤ x1) (hx1M : x1 ≤ M) (hy1 : 0 ≤ y1) (hy1M : y1 ≤ M)
    (hx2 : 0 ≤ x2) (hx2M : x2 ≤ M) (hy2 : 0 ≤ y2) (hy2M : y2 ≤ M) :
    (y1 - y0) * (x2 - x1) - (y2 - y1) * (x1 - x0) ≤ M ^ 2 := by
  rcases le_or_lt 0 (y2 - y1) with hu | hu <;> rcases le_or_lt 0 (y0 - y2) with hv | hv
  · -- u ≥ 0, v ≥ 0, w = y1 - y0 ≤ 0
    nlinarith [mul_nonneg (sub_nonneg.mpr hx0M) hu, mul_nonneg (sub_nonneg.mpr hx1M) hv,
      mul_nonneg hx2 (by omega : 0 ≤ y0 - y1),
      mul_nonneg (by omega : (0:ℤ) ≤ M) (by omega : 0 ≤ M - (y0 - y1))]
  · -- u ≥ 0, v < 0
    rcases le_or_lt x2 x0 with hc | hc <;> rcases le_or_lt x1 x2 with hd | hd
    · nlinarith [mul_nonneg (by omega : (0:ℤ) ≤ M - (y2 - y1)) (by omega : (0:ℤ) ≤ x0 - x2),
        mul_nonneg (by omega : (0:ℤ) ≤ M) (by omega : (0:ℤ) ≤ M - x0),
        mul_nonneg (by omega : (0:ℤ) ≤ M + (y0 - y2)) (by omega : (0:ℤ) ≤ x2 - x1),
        mul_nonneg (by omega : (0:ℤ) ≤ M) hx1]
    · nlinarith [mul_nonneg (by omega : (0:ℤ) ≤ M - (y2 - y1)) (by omega : (0:ℤ) ≤ x0 - x2),
        mul_nonneg (by omega : (0:ℤ) ≤ M) hx2,
        mul_nonneg (by omega : (0:ℤ) ≤ y2 - y0) (by omega : (0:ℤ) ≤ x1 - x2),
        mul_nonneg (by omega : (0:ℤ) ≤ M) (by omega : (0:ℤ) ≤ M - x0)]
    · nlinarith [mul_nonneg hu (by omega : (0:ℤ) ≤ x2 - x0),
        mul_nonneg (by omega : (0:ℤ) ≤ M + (y0 - y2)) (by omega : (0:ℤ) ≤ x2 - x1),
        mul_nonneg (by omega : (0:ℤ) ≤ M) hx1,
        mul_nonneg (by omega : (0:ℤ) ≤ M) (by omega : (0:ℤ) ≤ M - x2)]
    · nlinarith [mul_nonneg hu (by omega : (0:ℤ) ≤ x2 - x0),
        mul_nonneg (by omega : (0:ℤ) ≤ y2 - y0) (by omega : (0:ℤ) ≤ x1 - x2)]
  · -- u < 0, v ≥ 0
    rcases le_or_lt x2 x0 with hc | hc <;> rcases le_or_lt x1 x2 with hd | hd
    · nlinarith [mul_nonneg (by omega : (0:ℤ) ≤ y1 - y2) (by omega : (0:ℤ) ≤ x0 - x2),
        mul_nonneg (by omega : (0:ℤ) ≤ M) (by omega : (0:ℤ) ≤ M - x0),
        mul_nonneg (by omega : (0:ℤ) ≤ M - (y0 - y2)) (by omega : (0:ℤ) ≤ x2 - x1),
        mul_nonneg (by omega : (0:ℤ) ≤ M) hx1]
    · nlinarith [mul_nonneg (by omega : (0:ℤ) ≤ y1 - y2) (by omega : (0:ℤ) ≤ x0 - x2),
        mul_nonneg hv (by omega : (0:ℤ) ≤ x1 - x2),
        mul_nonneg (by omega : (0:ℤ) ≤ M) (by omega : (0:ℤ) ≤ M - x0),
        mul_nonneg (by omega : (0:ℤ) ≤ M) hx2]
    · nlinarith [mul_nonneg (by omega : (0:ℤ) ≤ M + (y2 - y1)) (by omega : (0:ℤ) ≤ x2 - x0),
        mul_nonneg (by omega : (0:ℤ) ≤ M) hx0,
        mul_nonneg (by omega : (0:ℤ) ≤ M - (y0 - y2)) (by omega : (0:ℤ) ≤ x2 - x1),
        mul_nonneg (by omega : (0:ℤ) ≤ M) hx1, mul_nonneg (by omega : (0:ℤ) ≤ M) (by omega : (0:ℤ) ≤ M - x2)]
    · nlinarith [mul_nonneg (by omega : (0:ℤ) ≤ M + (y2 - y1)) (by omega : (0:ℤ) ≤ x2 - x0),
        mul_nonneg (by omega : (0:ℤ) ≤ M) hx0,
        mul_nonneg hv (by omega : (0:ℤ) ≤ x1 - x2),
        mul_nonneg (by omega : (0:ℤ) ≤ M) (by omega : (0:ℤ) ≤ M - x2)]
  · -- u < 0, v < 0, w > 0
    nlinarith [mul_nonneg hx0 (by omega : (0:ℤ) ≤ y1 - y2), mul_nonneg hx1 (by omega : (0:ℤ) ≤ y2 - y0),
      mul_nonneg (sub_nonneg.mpr hx2M) (by omega : (0:ℤ) ≤ y1 - y0),
      mul_nonneg (by omega : (0:ℤ) ≤ M) (by omega : (0:ℤ) ≤ M - (y1 - y0))]

/-! MultiplierN lemmas. -/

theorem foldl_fmul_lt (t : List ℕ) : ∀ a : ℕ, a < pBN → t.foldl fmul a < pBN := by
  induction t with
  | nil => intro a ha; simpa using ha
  | cons h t ih => intro a _; exact ih _ (fmul_lt a h)

theorem multiplierNF_lt (l : List ℕ) (hl : ∀ x ∈ l, x < pBN) : multiplierNF l < pBN := by
  cases l with
  | nil => simpa [multiplierNF] using pBN_gt_one
  | cons h t => exact foldl_fmul_lt t h (hl h (List.mem_cons_self h t))

theorem foldl_fmul_ne_zero (t : List ℕ) :
    ∀ a : ℕ, a < pBN → a ≠ 0 → (∀ x ∈ t, x < pBN ∧ x ≠ 0) → t.foldl fmul a ≠ 0 := by
  induction t with
  | nil => intro a _ ha0 _; simpa using ha0
  | cons h t ih =>
    intro a ha ha0 hx
    have hh := hx h (List.mem_cons_self h t)
    refine ih (fmul a h) (fmul_lt a h) ?_ (fun x hxx => hx x (List.mem_cons_of_mem h hxx))
    intro hz
    rcases (fmul_eq_zero_iff ha hh.1).mp hz with h1 | h1
    · exact ha0 h1
    · exact hh.2 h1

theorem multiplierNF_ne_zero (l : List ℕ) (hl : ∀ x ∈ l, x < pBN ∧ x ≠ 0) :
    multiplierNF l ≠ 0 := by
  cases l with
  | nil => simp [multiplierNF]
  | cons h t =>
    have hh := hl h (List.mem_cons_self h t)
    exact foldl_fmul_ne_zero t h hh.1 hh.2 (fun x hx => hl x (List.mem_cons_of_mem h hx))

theorem foldl_fmul_zero (t : List ℕ) : t.foldl fmul 0 = 0 := by
  induction t with
  | nil => rfl
  | cons h t ih => simpa [fmul_zero_left] using ih

theorem foldl_fmul_zero_mem (t : List ℕ) : ∀ a : ℕ, 0 ∈ t → t.foldl fmul a = 0 := by
  induction t with
  | nil => intro a h; simp at h
  | cons h t ih =>
    intro a hm
    rcases List.mem_cons.mp hm with h0 | h0
    · rw [← h0]
      simpa [fmul_zero_right] using foldl_fmul_zero t
    · exact ih _ h0

theorem multiplierNF_zero_mem (l : List ℕ) (h : 0 ∈ l) : multiplierNF l = 0 := by
  cases l with
  | nil => simp at h
  | cons hd t =>
    rcases List.mem_cons.mp h with h0 | h0
    · rw [← h0]; exact foldl_fmul_zero t
    · exact foldl_fmul_zero_mem t hd h0

theorem foldl_fmul_bool (t : List ℕ) :
    ∀ a : ℕ, a = 0 ∨ a = 1 → (∀ x ∈ t, x = 0 ∨ x = 1) →
      t.foldl fmul a = if a = 1 ∧ ∀ x ∈ t, x = 1 then 1 else 0 := by
  induction t with
  | nil =>
    intro a ha _
    rcases ha with rfl | rfl <;> simp
  | cons h t ih =>
    intro a ha hx
    have hh := hx h (List.mem_cons_self h t)
    have hstep := ih (fmul a h)
      (by rcases ha with rfl | rfl <;> rcases hh with rfl | rfl <;>
        simp [fmul_zero_left, fmul_zero_right, fmul_one_one])
      (fun x hxx => hx x (List.mem_cons_of_mem h hxx))
    rw [List.foldl_cons, hstep]
    rcases ha with rfl | rfl <;> rcases hh with h0 | h0 <;>
      simp [h0, fmul_zero_left, fmul_zero_right, fmul_one_one] <;>
      intro hc <;> simp [List.forall_mem_cons, h0, hc]

theorem multiplierNF_bool (l : List ℕ) (hl : ∀ x ∈ l, x = 0 ∨ x = 1) :
    multiplierNF l = if ∀ x ∈ l, x = 1 then 1 else 0 := by
  cases l with
  | nil => simp [multiplierNF]
  | cons h t =>
    have hh := hl h (List.mem_cons_self h t)
    rw [show multiplierNF (h :: t) = t.foldl fmul h from rfl,
      foldl_fmul_bool t h hh (fun x hx => hl x (List.mem_cons_of_mem h hx))]
    simp [List.forall_mem_cons, and_assoc]

/-! Orientation bridge. -/

theorem intToF_nonneg_eq {z : ℤ} (h0 : 0 ≤ z) (hlt : z < (pBN : ℤ)) :
    (intToF z : ℤ) = z := by
  rw [intToF_cast, Int.emod_eq_of_lt h0 hlt]

theorem intToF_neg_eq {z : ℤ} (h0 : z < 0) (hgt : -(pBN : ℤ) < z) :
    (intToF z : ℤ) = z + pBN := by
  rw [intToF_cast]
  have h1 : (z + (pBN : ℤ) * 1) % (pBN : ℤ) = z % (pBN : ℤ) :=
    Int.add_mul_emod_self_left z (pBN : ℤ) 1
  rw [mul_one] at h1
  rw [← h1, Int.emod_eq_of_lt (by omega) (by omega)]

theorem pBN_eq_two_halfBN : pBN = 2 * halfBN + 1 := by
  unfold halfBN pBN; norm_num

theorem sq_grid_le_halfBN {gb : ℕ} (hgb : gb ≤ 126) : (2 ^ gb - 1) ^ 2 ≤ halfBN := by
  have h1 : (2 ^ gb - 1 : ℕ) ≤ 2 ^ 126 - 1 := by
    have := Nat.pow_le_pow_right (show 1 ≤ 2 by norm_num) hgb
    omega
  calc (2 ^ gb - 1 : ℕ) ^ 2 ≤ (2 ^ 126 - 1) ^ 2 := Nat.pow_le_pow_left h1 2
    _ ≤ halfBN := by decide

theorem crossZ_bound (M : ℤ) (a b c : ℤ × ℤ)
    (ha1 : 0 ≤ a.1) (ha1M : a.1 ≤ M) (ha2 : 0 ≤ a.2) (ha2M : a.2 ≤ M)
    (hb1 : 0 ≤ b.1) (hb1M : b.1 ≤ M) (hb2 : 0 ≤ b.2) (hb2M : b.2 ≤ M)
    (hc1 : 0 ≤ c.1) (hc1M : c.1 ≤ M) (hc2 : 0 ≤ c.2) (hc2M : c.2 ≤ M) :
    |crossZ a b c| ≤ M ^ 2 := by
  rw [abs_le]
  constructor
  · have h1 := shoelace_le M a.1 a.2 c.1 c.2 b.1 b.2 ha1 ha1M ha2 ha2M hc1 hc1M hc2 hc2M
      hb1 hb1M hb2 hb2M
    have h2 : (c.2 - a.2) * (b.1 - c.1) - (b.2 - c.2) * (c.1 - a.1) = -crossZ a b c := by
      unfold crossZ; ring
    rw [h2] at h1
    linarith
  · exact shoelace_le M a.1 a.2 b.1 b.2 c.1 c.2 ha1 ha1M ha2 ha2M hb1 hb1M hb2 hb2M
      hc1 hc1M hc2 hc2M

theorem fmul_one_left {a : ℕ} (h : a < pBN) : fmul 1 a = a := by
  simp [fmul, Nat.mod_eq_of_lt h]

theorem orientationF_eq (gb : ℕ) (hgb : gb ≤ 126) (p0 p1 p2 : ℕ × ℕ)
    (h01 : p0.1 < 2 ^ gb) (h02 : p0.2 < 2 ^ gb) (h11 : p1.1 < 2 ^ gb)
    (h12 : p1.2 < 2 ^ gb) (h21 : p2.1 < 2 ^ gb) (h22 : p2.2 < 2 ^ gb) :
    orientationF p0 p1 p2 = orientZ (zpt p0) (zpt p1) (zpt p2) := by
  have hp : ∀ x : ℕ, x < 2 ^ gb → x < pBN := fun x hx => lt_trans hx (two_pow_lt_pBN hgb)
  have hf : fsub (fmul (fsub p1.2 p0.2) (fsub p2.1 p1.1))
      (fmul (fsub p2.2 p1.2) (fsub p1.1 p0.1))
      = intToF (crossZ (zpt p0) (zpt p1) (zpt p2)) := by
    rw [fsub_eq_intToF _ _ (hp _ h12) (hp _ h02), fsub_eq_intToF _ _ (hp _ h21) (hp _ h11),
      fsub_eq_intToF _ _ (hp _ h22) (hp _ h12), fsub_eq_intToF _ _ (hp _ h11) (hp _ h01),
      fmul_intToF, fmul_intToF, fsub_intToF]
    rfl
  set F := crossZ (zpt p0) (zpt p1) (zpt p2) with hFdef
  have hMle : ∀ x : ℕ, x < 2 ^ gb → (x : ℤ) ≤ ((2 ^ gb - 1 : ℕ) : ℤ) :=
    fun x hx => Int.ofNat_le.mpr (by omega)
  have hbound : |F| ≤ (halfBN : ℤ) := by
    have hM : |F| ≤ ((2 ^ gb - 1 : ℕ) : ℤ) ^ 2 :=
      crossZ_bound _ _ _ _ (Int.natCast_nonneg _) (hMle _ h01) (Int.natCast_nonneg _)
        (hMle _ h02) (Int.natCast_nonneg _) (hMle _ h11) (Int.natCast_nonneg _)
        (hMle _ h12) (Int.natCast_nonneg _) (hMle _ h21) (Int.natCast_nonneg _) (hMle _ h22)
    calc |F| ≤ ((2 ^ gb - 1 : ℕ) : ℤ) ^ 2 := hM
      _ = (((2 ^ gb - 1) ^ 2 : ℕ) : ℤ) := by push_cast; ring
      _ ≤ (halfBN : ℤ) := Int.ofNat_le.mpr (sq_grid_le_halfBN hgb)
  have habs := abs_le.mp hbound
  have hhp : (halfBN : ℤ) * 2 + 1 = (pBN : ℤ) := by
    have h := pBN_eq_two_halfBN
    push_cast [h]
    ring
  have hh0 : (0 : ℤ) ≤ (halfBN : ℤ) := Int.natCast_nonneg _
  unfold orientationF
  simp only
  rw [hf]
  rcases lt_trichotomy F 0 with hneg | hzero | hpos
  · have hcast : (intToF F : ℤ) = F + pBN := intToF_neg_eq hneg (by omega)
    have hne : intToF F ≠ 0 := by
      intro h
      rw [h] at hcast
      simp at hcast
      omega
    have hsign : signF (intToF F) = 1 := by
      unfold signF
      rw [if_pos]
      have h1 : (halfBN : ℤ) < (intToF F : ℤ) := by rw [hcast]; omega
      exact_mod_cast h1
    have hor : orientZ (zpt p0) (zpt p1) (zpt p2) = 2 := by
      unfold orientZ
      rw [← hFdef, if_neg (by omega : ¬ F = 0), if_neg (by omega : ¬ 0 < F)]
    rw [hsign, hor]
    simp only [isZeroF, hne, if_false]
    rw [fsub_one_zero, fmul_one_left (by unfold pBN; norm_num)]
  · have hzeroF : intToF F = 0 := by rw [hzero]; unfold intToF; simp
    have hor : orientZ (zpt p0) (zpt p1) (zpt p2) = 0 := by
      unfold orientZ
      rw [← hFdef, if_pos hzero]
    rw [hzeroF, hor]
    simp [isZeroF, fsub_self_one, fmul_zero_left]
  · have hcast : (intToF F : ℤ) = F := intToF_nonneg_eq (le_of_lt hpos) (by omega)
    have hne : intToF F ≠ 0 := by
      intro h
      rw [h] at hcast
      simp at hcast
      omega
    have hsign : signF (intToF F) = 0 := by
      unfold signF
      rw [if_neg]
      intro hlt
      have h1 : (halfBN : ℤ) < (intToF F : ℤ) := by exact_mod_cast hlt
      rw [hcast] at h1
      omega
    have hor : orientZ (zpt p0) (zpt p1) (zpt p2) = 1 := by
      unfold orientZ
      rw [← hFdef, if_neg (by omega : ¬ F = 0), if_pos hpos]
    rw [hsign, hor]
    simp only [isZeroF, hne, if_false]
    rw [fsub_one_zero, fmul_one_left (by unfold pBN; norm_num)]

/-! Rational segment geometry. -/

theorem sideQ_crossZ (a b c : ℤ × ℤ) : sideQ a b (qp c) = (crossZ a b c : ℚ) := by
  unfold sideQ qp crossZ
  push_cast
  ring

theorem sideQ_pointOn (a b c d : ℤ × ℤ) (t : ℚ) :
    sideQ a b (pointOn c d t) = (1 - t) * sideQ a b (qp c) + t * sideQ a b (qp d) := by
  unfold sideQ pointOn qp
  push_cast
  ring

theorem sideQ_pointOn_self (a b : ℤ × ℤ) (t : ℚ) : sideQ a b (pointOn a b t) = 0 := by
  unfold sideQ pointOn
  push_cast
  ring

theorem memSegQ_iff (a b : ℤ × ℤ) (q : ℚ × ℚ) :
    memSegQ a b q ↔ ∃ t : ℚ, 0 ≤ t ∧ t ≤ 1 ∧ q = pointOn a b t := by
  unfold memSegQ pointOn
  constructor
  · rintro ⟨t, h0, h1, hx, hy⟩
    exact ⟨t, h0, h1, Prod.ext hx hy⟩
  · rintro ⟨t, h0, h1, rfl⟩
    exact ⟨t, h0, h1, rfl, rfl⟩

theorem memSegQ_left (a b : ℤ × ℤ) : memSegQ a b (qp a) :=
  ⟨0, le_refl 0, zero_le_one, by simp [qp], by simp [qp]⟩

theorem memSegQ_right (a b : ℤ × ℤ) : memSegQ a b (qp b) :=
  ⟨1, zero_le_one, le_refl 1, by simp [qp], by simp [qp]⟩

theorem ne_coord_of_ne {a b : ℤ × ℤ} (h : a ≠ b) : a.1 ≠ b.1 ∨ a.2 ≠ b.2 := by
  by_contra hc
  push_neg at hc
  exact h (Prod.ext hc.1 hc.2)

theorem int_cast_ne {x y : ℤ} (h : x ≠ y) : (x : ℚ) ≠ (y : ℚ) := by
  exact_mod_cast h

theorem onLine_param (a b : ℤ × ℤ) (hab : a ≠ b) (q : ℚ × ℚ)
    (h : sideQ a b q = 0) : ∃ t : ℚ, q = pointOn a b t := by
  rcases ne_coord_of_ne hab with hx | hy
  · have hne : (b.1 : ℚ) - (a.1 : ℚ) ≠ 0 := sub_ne_zero.mpr (int_cast_ne (Ne.symm hx))
    refine ⟨(q.1 - (a.1 : ℚ)) / ((b.1 : ℚ) - (a.1 : ℚ)), ?_⟩
    unfold pointOn
    unfold sideQ at h
    have h1 : (a.1 : ℚ) + (q.1 - (a.1 : ℚ)) / ((b.1 : ℚ) - (a.1 : ℚ)) * ((b.1 : ℚ) - (a.1 : ℚ))
        = q.1 := by
      field_simp
    have h2 : (a.2 : ℚ) + (q.1 - (a.1 : ℚ)) / ((b.1 : ℚ) - (a.1 : ℚ)) * ((b.2 : ℚ) - (a.2 : ℚ))
        = q.2 := by
      field_simp
      linear_combination h
    exact Prod.ext h1.symm h2.symm
  · have hne : (b.2 : ℚ) - (a.2 : ℚ) ≠ 0 := sub_ne_zero.mpr (int_cast_ne (Ne.symm hy))
    refine ⟨(q.2 - (a.2 : ℚ)) / ((b.2 : ℚ) - (a.2 : ℚ)), ?_⟩
    unfold pointOn
    unfold sideQ at h
    have h2 : (a.2 : ℚ) + (q.2 - (a.2 : ℚ)) / ((b.2 : ℚ) - (a.2 : ℚ)) * ((b.2 : ℚ) - (a.2 : ℚ))
        = q.2 := by
      field_simp
    have h1 : (a.1 : ℚ) + (q.2 - (a.2 : ℚ)) / ((b.2 : ℚ) - (a.2 : ℚ)) * ((b.1 : ℚ) - (a.1 : ℚ))
        = q.1 := by
      field_simp
      linear_combination -h
    exact Prod.ext h1.symm h2.symm

theorem coord_between (x y cc : ℤ) (t : ℚ) (h0 : 0 ≤ t) (h1 : t ≤ 1)
    (heq : (cc : ℚ) = (x : ℚ) + t * ((y : ℚ) - (x : ℚ))) :
    min x y ≤ cc ∧ cc ≤ max x y := by
  rcases le_total x y with hxy | hxy
  · have hq : (x : ℚ) ≤ (y : ℚ) := by exact_mod_cast hxy
    have hlo : (x : ℚ) ≤ (cc : ℚ) := by nlinarith
    have hhi : (cc : ℚ) ≤ (y : ℚ) := by nlinarith
    have hlo' : x ≤ cc := by exact_mod_cast hlo
    have hhi' : cc ≤ y := by exact_mod_cast hhi
    omega
  · have hq : (y : ℚ) ≤ (x : ℚ) := by exact_mod_cast hxy
    have hlo : (y : ℚ) ≤ (cc : ℚ) := by nlinarith
    have hhi : (cc : ℚ) ≤ (x : ℚ) := by nlinarith
    have hlo' : y ≤ cc := by exact_mod_cast hlo
    have hhi' : cc ≤ x := by exact_mod_cast hhi
    omega

theorem param_bounds (x y cc : ℤ) (t : ℚ) (hxy : x ≠ y)
    (heq : (cc : ℚ) = (x : ℚ) + t * ((y : ℚ) - (x : ℚ)))
    (hmin : min x y ≤ cc) (hmax : cc ≤ max x y) : 0 ≤ t ∧ t ≤ 1 := by
  have hne : (y : ℚ) - (x : ℚ) ≠ 0 := sub_ne_zero.mpr (int_cast_ne (Ne.symm hxy))
  have ht : t = ((cc : ℚ) - (x : ℚ)) / ((y : ℚ) - (x : ℚ)) := by
    rw [eq_div_iff hne]
    linarith
  rcases hxy.lt_or_lt with hlt | hlt
  · have hminx : min x y = x := by omega
    have hmaxy : max x y = y := by omega
    rw [hminx] at hmin
    rw [hmaxy] at hmax
    have hq1 : (x : ℚ) ≤ (cc : ℚ) := by exact_mod_cast hmin
    have hq2 : (cc : ℚ) ≤ (y : ℚ) := by exact_mod_cast hmax
    have hpos : (0 : ℚ) < (y : ℚ) - (x : ℚ) := by
      have : (x : ℚ) < (y : ℚ) := by exact_mod_cast hlt
      linarith
    constructor
    · rw [ht]; exact div_nonneg (by linarith) (le_of_lt hpos)
    · rw [ht]; rw [div_le_one hpos]; linarith
  · have hminy : min x y = y := by omega
    have hmaxx : max x y = x := by omega
    rw [hminy] at hmin
    rw [hmaxx] at hmax
    have hq1 : (y : ℚ) ≤ (cc : ℚ) := by exact_mod_cast hmin
    have hq2 : (cc : ℚ) ≤ (x : ℚ) := by exact_mod_cast hmax
    have hpos : (0 : ℚ) < (x : ℚ) - (y : ℚ) := by
      have : (y : ℚ) < (x : ℚ) := by exact_mod_cast hlt
      linarith
    have ht2 : t = ((x : ℚ) - (cc : ℚ)) / ((x : ℚ) - (y : ℚ)) := by
      rw [eq_div_iff (ne_of_gt hpos)]
      rw [ht]
      field_simp
      ring
    constructor
    · rw [ht2]; exact div_nonneg (by linarith) (le_of_lt hpos)
    · rw [ht2]; rw [div_le_one hpos]; linarith

theorem memSegQ_char (a b c : ℤ × ℤ) (hab : a ≠ b) :
    memSegQ a b (qp c) ↔ crossZ a b c = 0 ∧ inBBoxZ a b c := by
  constructor
  · intro hm
    obtain ⟨t, h0, h1, heq⟩ := (memSegQ_iff a b (qp c)).mp hm
    have hside : sideQ a b (qp c) = 0 := by rw [heq, sideQ_pointOn_self]
    have hcross : crossZ a b c = 0 := by
      have := sideQ_crossZ a b c
      rw [hside] at this
      exact_mod_cast this.symm
    refine ⟨hcross, ?_⟩
    have hx := congrArg Prod.fst heq
    have hy := congrArg Prod.snd heq
    simp only [qp, pointOn] at hx hy
    have hbx := coord_between a.1 b.1 c.1 t h0 h1 hx
    have hby := coord_between a.2 b.2 c.2 t h0 h1 hy
    exact ⟨hbx.1, hbx.2, hby.1, hby.2⟩
  · rintro ⟨hcross, hbbox⟩
    have hside : sideQ a b (qp c) = 0 := by
      rw [sideQ_crossZ, hcross]
      simp
    obtain ⟨t, heq⟩ := onLine_param a b hab _ hside
    have hx := congrArg Prod.fst heq
    have hy := congrArg Prod.snd heq
    simp only [qp, pointOn] at hx hy
    obtain ⟨hb1, hb2, hb3, hb4⟩ := hbbox
    rcases ne_coord_of_ne hab with hne | hne
    · obtain ⟨h0, h1⟩ := param_bounds a.1 b.1 c.1 t hne hx hb1 hb2
      exact (memSegQ_iff a b (qp c)).mpr ⟨t, h0, h1, heq⟩
    · obtain ⟨h0, h1⟩ := param_bounds a.2 b.2 c.2 t hne hy hb3 hb4
      exact (memSegQ_iff a b (qp c)).mpr ⟨t, h0, h1, heq⟩

theorem div_sub_bounds {s1 s2 : ℚ} (hs : s1 * s2 < 0) :
    0 ≤ s1 / (s1 - s2) ∧ s1 / (s1 - s2) ≤ 1 := by
  rcases mul_neg_iff.mp hs with ⟨hp, hn⟩ | ⟨hn, hp⟩
  · have hpos : 0 < s1 - s2 := by linarith
    constructor
    · exact div_nonneg (le_of_lt hp) (le_of_lt hpos)
    · rw [div_le_one hpos]; linarith
  · have hpos : 0 < s2 - s1 := by linarith
    have heq : s1 / (s1 - s2) = (-s1) / (s2 - s1) := by
      rw [show s2 - s1 = -(s1 - s2) by ring, show (-s1) / -(s1 - s2) = s1 / (s1 - s2) from
        neg_div_neg_eq s1 (s1 - s2)]
    rw [heq]
    constructor
    · exact div_nonneg (by linarith) (le_of_lt hpos)
    · rw [div_le_one hpos]; linarith

theorem sub_ne_zero_of_mul_neg {s1 s2 : ℚ} (hs : s1 * s2 < 0) : s1 - s2 ≠ 0 := by
  intro h
  rw [sub_eq_zero] at h
  rw [← h] at hs
  exact absurd hs (not_lt.mpr (mul_self_nonneg s1))

theorem crossing_of_opposite (a b c d : ℤ × ℤ)
    (h1 : crossZ c d a * crossZ c d b < 0)
    (h2 : crossZ a b c * crossZ a b d < 0) :
    segIntersectQ a b c d := by
  have hab : a ≠ b := by
    rintro rfl
    exact absurd h1 (not_lt.mpr (mul_self_nonneg _))
  have hcd : c ≠ d := by
    rintro rfl
    exact absurd h2 (not_lt.mpr (mul_self_nonneg _))
  have hs : (crossZ c d a : ℚ) * (crossZ c d b : ℚ) < 0 := by exact_mod_cast h1
  have hw : (crossZ a b c : ℚ) * (crossZ a b d : ℚ) < 0 := by exact_mod_cast h2
  have hsne := sub_ne_zero_of_mul_neg hs
  have hwne := sub_ne_zero_of_mul_neg hw
  obtain ⟨ht0, ht1⟩ := div_sub_bounds hs
  set t : ℚ := (crossZ c d a : ℚ) / ((crossZ c d a : ℚ) - (crossZ c d b : ℚ)) with htdef
  set q : ℚ × ℚ := pointOn a b t with hqdef
  have hmab : memSegQ a b q := (memSegQ_iff a b q).mpr ⟨t, ht0, ht1, rfl⟩
  have hqcd : sideQ c d q = 0 := by
    rw [hqdef, sideQ_pointOn, sideQ_crossZ, sideQ_crossZ, htdef]
    field_simp
    ring
  obtain ⟨u, hu⟩ := onLine_param c d hcd q hqcd
  have hqab : sideQ a b q = 0 := sideQ_pointOn_self a b t
  have hueq : (1 - u) * (crossZ a b c : ℚ) + u * (crossZ a b d : ℚ) = 0 := by
    have haff := sideQ_pointOn a b c d u
    rw [← hu, hqab, sideQ_crossZ, sideQ_crossZ] at haff
    exact haff.symm
  have hu2 : u = (crossZ a b c : ℚ) / ((crossZ a b c : ℚ) - (crossZ a b d : ℚ)) := by
    rw [eq_div_iff hwne]
    linear_combination -hueq
  obtain ⟨hu0, hu1⟩ := div_sub_bounds hw
  rw [← hu2] at hu0 hu1
  have hmcd : memSegQ c d q := (memSegQ_iff c d q).mpr ⟨u, hu0, hu1, hu⟩
  exact ⟨q, hmab, hmcd⟩

theorem pointOn_zero (c d : ℤ × ℤ) : pointOn c d 0 = qp c := by
  unfold pointOn qp
  simp

theorem pointOn_one (c d : ℤ × ℤ) : pointOn c d 1 = qp d := by
  unfold pointOn qp
  simp

theorem sideQ_left (a b : ℤ × ℤ) : sideQ a b (qp a) = 0 := by
  unfold sideQ qp
  ring

theorem sideQ_right (a b : ℤ × ℤ) : sideQ a b (qp b) = 0 := by
  unfold sideQ qp
  ring

theorem segIntersectQ_symm {a b c d : ℤ × ℤ} (h : segIntersectQ a b c d) :
    segIntersectQ c d a b := by
  obtain ⟨q, h1, h2⟩ := h
  exact ⟨q, h2, h1⟩

theorem pinned_at_c (a b c d e : ℤ × ℤ) (hcd : c ≠ d)
    (he : crossZ c d e = 0) (hsq : sideQ a b (qp e) = 0)
    (hw1 : crossZ a b c = 0) (hw2 : crossZ a b d ≠ 0) : qp e = qp c := by
  obtain ⟨α, hα⟩ := onLine_param c d hcd (qp e)
    (by rw [sideQ_crossZ]; exact_mod_cast he)
  have haff := sideQ_pointOn a b c d α
  rw [← hα, hsq, sideQ_crossZ, sideQ_crossZ] at haff
  have hw1q : ((crossZ a b c : ℤ) : ℚ) = 0 := by exact_mod_cast hw1
  have hw2q : ((crossZ a b d : ℤ) : ℚ) ≠ 0 := by exact_mod_cast hw2
  rw [hw1q] at haff
  have hα0 : α = 0 := by
    rcases mul_eq_zero.mp (show α * ((crossZ a b d : ℤ) : ℚ) = 0 by linarith) with h | h
    · exact h
    · exact absurd h hw2q
  rw [hα0, pointOn_zero] at hα
  exact hα

theorem pinned_at_d (a b c d e : ℤ × ℤ) (hcd : c ≠ d)
    (he : crossZ c d e = 0) (hsq : sideQ a b (qp e) = 0)
    (hw1 : crossZ a b c ≠ 0) (hw2 : crossZ a b d = 0) : qp e = qp d := by
  obtain ⟨α, hα⟩ := onLine_param c d hcd (qp e)
    (by rw [sideQ_crossZ]; exact_mod_cast he)
  have haff := sideQ_pointOn a b c d α
  rw [← hα, hsq, sideQ_crossZ, sideQ_crossZ] at haff
  have hw1q : ((crossZ a b c : ℤ) : ℚ) ≠ 0 := by exact_mod_cast hw1
  have hw2q : ((crossZ a b d : ℤ) : ℚ) = 0 := by exact_mod_cast hw2
  rw [hw2q] at haff
  have hα1 : α = 1 := by
    rcases mul_eq_zero.mp (show (1 - α) * ((crossZ a b c : ℤ) : ℚ) = 0 by linarith) with h | h
    · linarith [sub_eq_zero.mp h]
    · exact absurd h hw1q
  rw [hα1, pointOn_one] at hα
  exact hα

theorem meet_cross_c (a b c d : ℤ × ℤ) (hab : a ≠ b) (hcd : c ≠ d)
    (hs : crossZ c d a * crossZ c d b < 0)
    (hw1 : crossZ a b c = 0) (hw2 : crossZ a b d ≠ 0) : segIntersectQ a b c d := by
  have hsq : (crossZ c d a : ℚ) * (crossZ c d b : ℚ) < 0 := by exact_mod_cast hs
  have hsne := sub_ne_zero_of_mul_neg hsq
  obtain ⟨ht0, ht1⟩ := div_sub_bounds hsq
  set t : ℚ := (crossZ c d a : ℚ) / ((crossZ c d a : ℚ) - (crossZ c d b : ℚ)) with htdef
  set q : ℚ × ℚ := pointOn a b t with hqdef
  have hmab : memSegQ a b q := (memSegQ_iff a b q).mpr ⟨t, ht0, ht1, rfl⟩
  have hqcd : sideQ c d q = 0 := by
    rw [hqdef, sideQ_pointOn, sideQ_crossZ, sideQ_crossZ, htdef]
    field_simp
    ring
  obtain ⟨v, hv⟩ := onLine_param c d hcd q hqcd
  have hqab : sideQ a b q = 0 := sideQ_pointOn_self a b t
  have haff := sideQ_pointOn a b c d v
  rw [← hv, hqab, sideQ_crossZ, sideQ_crossZ] at haff
  have hw1q : ((crossZ a b c : ℤ) : ℚ) = 0 := by exact_mod_cast hw1
  have hw2q : ((crossZ a b d : ℤ) : ℚ) ≠ 0 := by exact_mod_cast hw2
  rw [hw1q] at haff
  have hv0 : v = 0 := by
    rcases mul_eq_zero.mp (show v * ((crossZ a b d : ℤ) : ℚ) = 0 by linarith) with h | h
    · exact h
    · exact absurd h hw2q
  rw [hv0, pointOn_zero] at hv
  exact ⟨q, hmab, by rw [hv]; exact memSegQ_left c d⟩

theorem meet_cross_d (a b c d : ℤ × ℤ) (hab : a ≠ b) (hcd : c ≠ d)
    (hs : crossZ c d a * crossZ c d b < 0)
    (hw1 : crossZ a b c ≠ 0) (hw2 : crossZ a b d = 0) : segIntersectQ a b c d := by
  have hsq : (crossZ c d a : ℚ) * (crossZ c d b : ℚ) < 0 := by exact_mod_cast hs
  have hsne := sub_ne_zero_of_mul_neg hsq
  obtain ⟨ht0, ht1⟩ := div_sub_bounds hsq
  set t : ℚ := (crossZ c d a : ℚ) / ((crossZ c d a : ℚ) - (crossZ c d b : ℚ)) with htdef
  set q : ℚ × ℚ := pointOn a b t with hqdef
  have hmab : memSegQ a b q := (memSegQ_iff a b q).mpr ⟨t, ht0, ht1, rfl⟩
  have hqcd : sideQ c d q = 0 := by
    rw [hqdef, sideQ_pointOn, sideQ_crossZ, sideQ_crossZ, htdef]
    field_simp
    ring
  obtain ⟨v, hv⟩ := onLine_param c d hcd q hqcd
  have hqab : sideQ a b q = 0 := sideQ_pointOn_self a b t
  have haff := sideQ_pointOn a b c d v
  rw [← hv, hqab, sideQ_crossZ, sideQ_crossZ] at haff
  have hw1q : ((crossZ a b c : ℤ) : ℚ) ≠ 0 := by exact_mod_cast hw1
  have hw2q : ((crossZ a b d : ℤ) : ℚ) = 0 := by exact_mod_cast hw2
  rw [hw2q] at haff
  have hv1 : v = 1 := by
    rcases mul_eq_zero.mp (show (1 - v) * ((crossZ a b c : ℤ) : ℚ) = 0 by linarith) with h | h
    · linarith [sub_eq_zero.mp h]
    · exact absurd h hw1q
  rw [hv1, pointOn_one] at hv
  exact ⟨q, hmab, by rw [hv]; exact memSegQ_right c d⟩

theorem orientZ_spec (a b c : ℤ × ℤ) :
    (crossZ a b c = 0 ∧ orientZ a b c = 0) ∨ (0 < crossZ a b c ∧ orientZ a b c = 1) ∨
      (crossZ a b c < 0 ∧ orientZ a b c = 2) := by
  unfold orientZ
  rcases lt_trichotomy (crossZ a b c) 0 with h | h | h
  · exact Or.inr (Or.inr ⟨h, by rw [if_neg (by omega), if_neg (by omega)]⟩)
  · exact Or.inl ⟨h, by rw [if_pos h]⟩
  · exact Or.inr (Or.inl ⟨h, by rw [if_neg (by omega), if_pos h]⟩)

theorem orientZ_ne_cases {a b c d : ℤ × ℤ} (h : orientZ a b c ≠ orientZ a b d) :
    crossZ a b c * crossZ a b d < 0 ∨ (crossZ a b c = 0 ∧ crossZ a b d ≠ 0) ∨
      (crossZ a b c ≠ 0 ∧ crossZ a b d = 0) := by
  rcases orientZ_spec a b c with ⟨hc, hoc⟩ | ⟨hc, hoc⟩ | ⟨hc, hoc⟩ <;>
    rcases orientZ_spec a b d with ⟨hd, hod⟩ | ⟨hd, hod⟩ | ⟨hd, hod⟩ <;>
    rw [hoc, hod] at h
  · exact absurd rfl h
  · exact Or.inr (Or.inl ⟨hc, by omega⟩)
  · exact Or.inr (Or.inl ⟨hc, by omega⟩)
  · exact Or.inr (Or.inr ⟨by omega, hd⟩)
  · exact absurd rfl h
  · exact Or.inl (mul_neg_of_pos_of_neg hc hd)
  · exact Or.inr (Or.inr ⟨by omega, hd⟩)
  · exact Or.inl (mul_neg_of_neg_of_pos hc hd)
  · exact absurd rfl h

theorem orientZ_eq_cases {a b c d : ℤ × ℤ} (h : orientZ a b c = orientZ a b d) :
    (crossZ a b c = 0 ∧ crossZ a b d = 0) ∨ 0 < crossZ a b c * crossZ a b d := by
  rcases orientZ_spec a b c with ⟨hc, hoc⟩ | ⟨hc, hoc⟩ | ⟨hc, hoc⟩ <;>
    rcases orientZ_spec a b d with ⟨hd, hod⟩ | ⟨hd, hod⟩ | ⟨hd, hod⟩ <;>
    rw [hoc, hod] at h <;> try omega
  · exact Or.inr (mul_pos hc hd)
  · exact Or.inr (mul_pos_of_neg_of_neg hc hd)

theorem intersect_of_orient_ne (a b c d : ℤ × ℤ) (hab : a ≠ b) (hcd : c ≠ d)
    (hw : orientZ a b c ≠ orientZ a b d) (hs : orientZ c d a ≠ orientZ c d b) :
    segIntersectQ a b c d := by
  rcases orientZ_ne_cases hw with hw0 | ⟨hw1, hw2⟩ | ⟨hw1, hw2⟩ <;>
    rcases orientZ_ne_cases hs with hs0 | ⟨hs1, hs2⟩ | ⟨hs1, hs2⟩
  · exact crossing_of_opposite a b c d hs0 hw0
  · exact segIntersectQ_symm (meet_cross_c c d a b hcd hab hw0 hs1 hs2)
  · exact segIntersectQ_symm (meet_cross_d c d a b hcd hab hw0 hs1 hs2)
  · exact meet_cross_c a b c d hab hcd hs0 hw1 hw2
  · exact ⟨qp a, memSegQ_left a b, by
      rw [pinned_at_c a b c d a hcd hs1 (sideQ_left a b) hw1 hw2]
      exact memSegQ_left c d⟩
  · exact ⟨qp b, memSegQ_right a b, by
      rw [pinned_at_c a b c d b hcd hs2 (sideQ_right a b) hw1 hw2]
      exact memSegQ_left c d⟩
  · exact meet_cross_d a b c d hab hcd hs0 hw1 hw2
  · exact ⟨qp a, memSegQ_left a b, by
      rw [pinned_at_d a b c d a hcd hs1 (sideQ_left a b) hw1 hw2]
      exact memSegQ_right c d⟩
  · exact ⟨qp b, memSegQ_right a b, by
      rw [pinned_at_d a b c d b hcd hs2 (sideQ_right a b) hw1 hw2]
      exact memSegQ_right c d⟩

theorem pointOn_inj (a b : ℤ × ℤ) (hab : a ≠ b) {s t : ℚ}
    (h : pointOn a b s = pointOn a b t) : s = t := by
  have hx := congrArg Prod.fst h
  have hy := congrArg Prod.snd h
  simp only [pointOn] at hx hy
  rcases ne_coord_of_ne hab with hne | hne
  · have hne2 : (b.1 : ℚ) - (a.1 : ℚ) ≠ 0 := sub_ne_zero.mpr (int_cast_ne (Ne.symm hne))
    have h2 : s * ((b.1 : ℚ) - (a.1 : ℚ)) = t * ((b.1 : ℚ) - (a.1 : ℚ)) := by linarith
    exact mul_right_cancel₀ hne2 h2
  · have hne2 : (b.2 : ℚ) - (a.2 : ℚ) ≠ 0 := sub_ne_zero.mpr (int_cast_ne (Ne.symm hne))
    have h2 : s * ((b.2 : ℚ) - (a.2 : ℚ)) = t * ((b.2 : ℚ) - (a.2 : ℚ)) := by linarith
    exact mul_right_cancel₀ hne2 h2

theorem pointOn_comp (a b c d : ℤ × ℤ) (γ δ u : ℚ)
    (hc : qp c = pointOn a b γ) (hd : qp d = pointOn a b δ) :
    pointOn c d u = pointOn a b ((1 - u) * γ + u * δ) := by
  have hcx := congrArg Prod.fst hc
  have hcy := congrArg Prod.snd hc
  have hdx := congrArg Prod.fst hd
  have hdy := congrArg Prod.snd hd
  simp only [pointOn, qp] at hcx hcy hdx hdy
  apply Prod.ext <;> simp only [pointOn]
  · linear_combination (1 - u) * hcx + u * hdx
  · linear_combination (1 - u) * hcy + u * hdy

theorem not_memSeg_param (a b e : ℤ × ℤ) (γ : ℚ) (h : qp e = pointOn a b γ)
    (hnm : ¬ memSegQ a b (qp e)) : γ < 0 ∨ 1 < γ := by
  by_contra hc
  push_neg at hc
  exact hnm ((memSegQ_iff a b (qp e)).mpr ⟨γ, by linarith [hc.1], by linarith [hc.2], h⟩)

theorem collinear_case (a b c d : ℤ × ℤ) (hab : a ≠ b) (hcd : c ≠ d)
    (hc : crossZ a b c = 0) (hd : crossZ a b d = 0)
    (hint : segIntersectQ a b c d)
    (hnc : ¬ memSegQ a b (qp c)) (hnd : ¬ memSegQ a b (qp d)) :
    memSegQ c d (qp a) := by
  obtain ⟨γ, hγ⟩ := onLine_param a b hab (qp c) (by rw [sideQ_crossZ]; exact_mod_cast hc)
  obtain ⟨δ, hδ⟩ := onLine_param a b hab (qp d) (by rw [sideQ_crossZ]; exact_mod_cast hd)
  obtain ⟨q, hqab, hqcd⟩ := hint
  obtain ⟨t, ht0, ht1, hqt⟩ := (memSegQ_iff a b q).mp hqab
  obtain ⟨u, hu0, hu1, hqu⟩ := (memSegQ_iff c d q).mp hqcd
  have hcomp := pointOn_comp a b c d γ δ u hγ hδ
  have ht_eq : t = (1 - u) * γ + u * δ := pointOn_inj a b hab (by rw [← hqt, hqu, hcomp])
  have hγr := not_memSeg_param a b c γ hγ hnc
  have hδr := not_memSeg_param a b d δ hδ hnd
  rcases hγr with hγ1 | hγ1 <;> rcases hδr with hδ1 | hδ1
  · exfalso
    have e1 : (1 - u) * γ ≤ 0 :=
      mul_nonpos_of_nonneg_of_nonpos (by linarith) (le_of_lt hγ1)
    have e2 : u * δ ≤ 0 := mul_nonpos_of_nonneg_of_nonpos hu0 (le_of_lt hδ1)
    have e3 : (1 - u) * γ = 0 := by linarith
    have e4 : u * δ = 0 := by linarith
    rcases mul_eq_zero.mp e3 with h5 | h5
    · rcases mul_eq_zero.mp e4 with h6 | h6
      · linarith
      · linarith
    · linarith
  · have hprod : γ * δ < 0 := mul_neg_of_neg_of_pos hγ1 (by linarith)
    have hne : γ - δ ≠ 0 := sub_ne_zero_of_mul_neg hprod
    obtain ⟨hv0, hv1⟩ := div_sub_bounds hprod
    refine (memSegQ_iff c d (qp a)).mpr ⟨γ / (γ - δ), hv0, hv1, ?_⟩
    rw [pointOn_comp a b c d γ δ _ hγ hδ]
    have hz : (1 - γ / (γ - δ)) * γ + γ / (γ - δ) * δ = 0 := by
      field_simp
      ring
    rw [hz, pointOn_zero]
  · have hprod : γ * δ < 0 := mul_neg_of_pos_of_neg (by linarith) hδ1
    have hne : γ - δ ≠ 0 := sub_ne_zero_of_mul_neg hprod
    obtain ⟨hv0, hv1⟩ := div_sub_bounds hprod
    refine (memSegQ_iff c d (qp a)).mpr ⟨γ / (γ - δ), hv0, hv1, ?_⟩
    rw [pointOn_comp a b c d γ δ _ hγ hδ]
    have hz : (1 - γ / (γ - δ)) * γ + γ / (γ - δ) * δ = 0 := by
      field_simp
      ring
    rw [hz, pointOn_zero]
  · exfalso
    have e1 : 0 ≤ (1 - u) * (γ - 1) :=
      mul_nonneg (by linarith) (by linarith)
    have e2 : 0 ≤ u * (δ - 1) := mul_nonneg hu0 (by linarith)
    have e3 : (1 - u) * (γ - 1) + u * (δ - 1) = t - 1 := by ring_nf; linarith [ht_eq]
    have e4 : (1 - u) * (γ - 1) = 0 := by linarith
    have e5 : u * (δ - 1) = 0 := by linarith
    rcases mul_eq_zero.mp e4 with h5 | h5
    · rcases mul_eq_zero.mp e5 with h6 | h6
      · linarith
      · linarith
    · linarith

theorem same_strict_sign_absurd (a b c d : ℤ × ℤ)
    (hint : segIntersectQ a b c d) (hsame : 0 < crossZ a b c * crossZ a b d) : False := by
  obtain ⟨q, hqab, hqcd⟩ := hint
  obtain ⟨t, ht0, ht1, hqt⟩ := (memSegQ_iff a b q).mp hqab
  obtain ⟨u, hu0, hu1, hqu⟩ := (memSegQ_iff c d q).mp hqcd
  have hz : sideQ a b q = 0 := by rw [hqt]; exact sideQ_pointOn_self a b t
  have haff := sideQ_pointOn a b c d u
  rw [← hqu, hz, sideQ_crossZ, sideQ_crossZ] at haff
  have hq : (0 : ℚ) < (crossZ a b c : ℚ) * (crossZ a b d : ℚ) := by exact_mod_cast hsame
  rcases mul_pos_iff.mp hq with ⟨h1, h2⟩ | ⟨h1, h2⟩
  · have e1 : 0 ≤ (1 - u) * (crossZ a b c : ℚ) := mul_nonneg (by linarith) (le_of_lt h1)
    have e2 : 0 ≤ u * (crossZ a b d : ℚ) := mul_nonneg hu0 (le_of_lt h2)
    have e3 : (1 - u) * (crossZ a b c : ℚ) = 0 := by linarith
    have e4 : u * (crossZ a b d : ℚ) = 0 := by linarith
    rcases mul_eq_zero.mp e3 with h5 | h5
    · rcases mul_eq_zero.mp e4 with h6 | h6
      · linarith
      · linarith
    · linarith
  · have e1 : (1 - u) * (crossZ a b c : ℚ) ≤ 0 :=
      mul_nonpos_of_nonneg_of_nonpos (by linarith) (le_of_lt h1)
    have e2 : u * (crossZ a b d : ℚ) ≤ 0 :=
      mul_nonpos_of_nonneg_of_nonpos hu0 (le_of_lt h2)
    have e3 : (1 - u) * (crossZ a b c : ℚ) = 0 := by linarith
    have e4 : u * (crossZ a b d : ℚ) = 0 := by linarith
    rcases mul_eq_zero.mp e3 with h5 | h5
    · rcases mul_eq_zero.mp e4 with h6 | h6
      · linarith
      · linarith
    · linarith

theorem orient_ne_of_intersect (a b c d : ℤ × ℤ) (hab : a ≠ b) (hcd : c ≠ d)
    (hint : segIntersectQ a b c d)
    (hnc : ¬ memSegQ a b (qp c)) (hnd : ¬ memSegQ a b (qp d))
    (hna : ¬ memSegQ c d (qp a)) :
    orientZ a b c ≠ orientZ a b d := by
  intro heq
  rcases orientZ_eq_cases heq with ⟨h1, h2⟩ | hpos
  · exact hna (collinear_case a b c d hab hcd h1 h2 hint hnc hnd)
  · exact same_strict_sign_absurd a b c d hint hpos

/-! Master characterization of the Intersects circuit. -/

theorem orientZ_le_two (a b c : ℤ × ℤ) : orientZ a b c ≤ 2 := by
  rcases orientZ_spec a b c with ⟨_, h⟩ | ⟨_, h⟩ | ⟨_, h⟩ <;> omega

theorem orientZ_zero_iff (a b c : ℤ × ℤ) : orientZ a b c = 0 ↔ crossZ a b c = 0 := by
  rcases orientZ_spec a b c with ⟨h1, h2⟩ | ⟨h1, h2⟩ | ⟨h1, h2⟩ <;>
    constructor <;> intro h <;> omega

theorem fsub_eq_zero_iff {x y : ℕ} (hx : x < pBN) (hy : y < pBN) :
    fsub x y = 0 ↔ x = y := by
  rw [fsub_eq_intToF x y hx hy]
  have hxz : ((x : ℕ) : ℤ) < (pBN : ℤ) := by exact_mod_cast hx
  have hyz : ((y : ℕ) : ℤ) < (pBN : ℤ) := by exact_mod_cast hy
  have habs : |(x : ℤ) - (y : ℤ)| < (pBN : ℤ) := by
    rw [abs_lt]
    constructor <;> omega
  rw [intToF_eq_zero_small habs, sub_eq_zero]
  exact_mod_cast Iff.rfl

theorem zpt_ne {A B : ℕ × ℕ} (h : A ≠ B) : zpt A ≠ zpt B := by
  intro hc
  have h1 := congrArg Prod.fst hc
  have h2 := congrArg Prod.snd hc
  simp only [zpt] at h1 h2
  exact h (Prod.ext (by exact_mod_cast h1) (by exact_mod_cast h2))

theorem isZeroF_eq_one_iff {x : ℕ} : isZeroF x = 1 ↔ x = 0 := by
  unfold isZeroF
  split_ifs with h <;> simp [h]

theorem isZeroF_eq_zero_iff {x : ℕ} : isZeroF x = 0 ↔ x ≠ 0 := by
  unfold isZeroF
  split_ifs with h <;> simp [h]

theorem three_lt_pBN : 3 < pBN := by unfold pBN; norm_num

theorem ns_eq_zero_iff (o : ℕ) (P : Prop) [Decidable P] (ho : o ≤ 2) :
    fsub (o + 1) (if P then 1 else 0) = 0 ↔ (o = 0 ∧ P) := by
  have h1 : o + 1 < pBN := by have := three_lt_pBN; omega
  have h2 : (if P then 1 else 0) < pBN := by
    have hg := pBN_gt_one
    split_ifs <;> omega
  rw [fsub_eq_zero_iff h1 h2]
  split_ifs with hP
  · constructor
    · intro h; exact ⟨by omega, hP⟩
    · intro h; omega
  · constructor
    · intro h; exact h.elim
    · intro h; exact absurd h.2 hP

theorem orientZ_lt_pBN (a b c : ℤ × ℤ) : orientZ a b c < pBN := by
  have h1 := orientZ_le_two a b c
  have h2 := three_lt_pBN
  omega

theorem isZeroF_lt (x : ℕ) : isZeroF x < pBN := by
  unfold isZeroF
  have hg := pBN_gt_one
  split_ifs <;> omega

theorem intersectsF_eq_one_iff (gb : ℕ) (hgb : gb ≤ 126) (A B C D : ℕ × ℕ)
    (hA1 : A.1 < 2 ^ gb) (hA2 : A.2 < 2 ^ gb) (hB1 : B.1 < 2 ^ gb) (hB2 : B.2 < 2 ^ gb)
    (hC1 : C.1 < 2 ^ gb) (hC2 : C.2 < 2 ^ gb) (hD1 : D.1 < 2 ^ gb) (hD2 : D.2 < 2 ^ gb)
    (hAB : A ≠ B) (hCD : C ≠ D) :
    intersectsF gb (A, B) (C, D) = 1 ↔
      ((orientZ (zpt A) (zpt B) (zpt C) ≠ orientZ (zpt A) (zpt B) (zpt D) ∧
        orientZ (zpt C) (zpt D) (zpt A) ≠ orientZ (zpt C) (zpt D) (zpt B)) ∨
       memSegQ (zpt A) (zpt B) (qp (zpt C)) ∨ memSegQ (zpt A) (zpt B) (qp (zpt D)) ∨
       memSegQ (zpt C) (zpt D) (qp (zpt A)) ∨ memSegQ (zpt C) (zpt D) (qp (zpt B))) := by
  have hABz := zpt_ne hAB
  have hCDz := zpt_ne hCD
  unfold intersectsF
  simp only
  rw [orientationF_eq gb hgb A B C hA1 hA2 hB1 hB2 hC1 hC2,
    orientationF_eq gb hgb A B D hA1 hA2 hB1 hB2 hD1 hD2,
    orientationF_eq gb hgb C D A hC1 hC2 hD1 hD2 hA1 hA2,
    orientationF_eq gb hgb C D B hC1 hC2 hD1 hD2 hB1 hB2,
    inRectF_eq gb hgb A B C hA1 hA2 hB1 hB2 hC1 hC2,
    inRectF_eq gb hgb A B D hA1 hA2 hB1 hB2 hD1 hD2,
    inRectF_eq gb hgb C D A hC1 hC2 hD1 hD2 hA1 hA2,
    inRectF_eq gb hgb C D B hC1 hC2 hD1 hD2 hB1 hB2]
  rw [isZeroF_eq_one_iff, fmul_eq_zero_iff (isZeroF_lt _) (fmul_lt _ _),
    isZeroF_eq_zero_iff, fmul_eq_zero_iff (fmul_lt _ _) (fmul_lt _ _)]
  simp only [ne_eq]
  rw [fmul_eq_zero_iff (fsub_lt _ _) (fsub_lt _ _),
    fsub_eq_zero_iff (orientZ_lt_pBN (zpt A) (zpt B) (zpt C))
      (orientZ_lt_pBN (zpt A) (zpt B) (zpt D)),
    fsub_eq_zero_iff (orientZ_lt_pBN (zpt C) (zpt D) (zpt A))
      (orientZ_lt_pBN (zpt C) (zpt D) (zpt B)),
    fmul_eq_zero_iff (fsub_lt _ _) (fsub_lt _ _),
    fmul_eq_zero_iff (fsub_lt _ _) (fsub_lt _ _),
    ns_eq_zero_iff _ _ (orientZ_le_two _ _ _), ns_eq_zero_iff _ _ (orientZ_le_two _ _ _),
    ns_eq_zero_iff _ _ (orientZ_le_two _ _ _), ns_eq_zero_iff _ _ (orientZ_le_two _ _ _),
    orientZ_zero_iff, orientZ_zero_iff, orientZ_zero_iff, orientZ_zero_iff,
    ← memSegQ_char (zpt A) (zpt B) (zpt C) hABz, ← memSegQ_char (zpt A) (zpt B) (zpt D) hABz,
    ← memSegQ_char (zpt C) (zpt D) (zpt A) hCDz, ← memSegQ_char (zpt C) (zpt D) (zpt B) hCDz]
  tauto

theorem intersectsF_zero_or_one (gb : ℕ) (l1 l2 : (ℕ × ℕ) × (ℕ × ℕ)) :
    intersectsF gb l1 l2 = 0 ∨ intersectsF gb l1 l2 = 1 := by
  unfold intersectsF
  simp only
  unfold isZeroF
  split_ifs <;> simp

theorem segIntersect_of_disj {A B C D : ℕ × ℕ}
    (h : (orientZ (zpt A) (zpt B) (zpt C) ≠ orientZ (zpt A) (zpt B) (zpt D) ∧
        orientZ (zpt C) (zpt D) (zpt A) ≠ orientZ (zpt C) (zpt D) (zpt B)) ∨
       memSegQ (zpt A) (zpt B) (qp (zpt C)) ∨ memSegQ (zpt A) (zpt B) (qp (zpt D)) ∨
       memSegQ (zpt C) (zpt D) (qp (zpt A)) ∨ memSegQ (zpt C) (zpt D) (qp (zpt B)))
    (hAB : A ≠ B) (hCD : C ≠ D) :
    segIntersectQ (zpt A) (zpt B) (zpt C) (zpt D) := by
  rcases h with ⟨h1, h2⟩ | h0 | h0 | h0 | h0
  · exact intersect_of_orient_ne _ _ _ _ (zpt_ne hAB) (zpt_ne hCD) h1 h2
  · exact ⟨qp (zpt C), h0, memSegQ_left _ _⟩
  · exact ⟨qp (zpt D), h0, memSegQ_right _ _⟩
  · exact ⟨qp (zpt A), memSegQ_left _ _, h0⟩
  · exact ⟨qp (zpt B), memSegQ_right _ _, h0⟩

theorem intersectsF_one_iff_segIntersect (gb : ℕ) (hgb : gb ≤ 126) (A B C D : ℕ × ℕ)
    (hA1 : A.1 < 2 ^ gb) (hA2 : A.2 < 2 ^ gb) (hB1 : B.1 < 2 ^ gb) (hB2 : B.2 < 2 ^ gb)
    (hC1 : C.1 < 2 ^ gb) (hC2 : C.2 < 2 ^ gb) (hD1 : D.1 < 2 ^ gb) (hD2 : D.2 < 2 ^ gb)
    (hAB : A ≠ B) (hCD : C ≠ D) :
    intersectsF gb (A, B) (C, D) = 1 ↔ segIntersectQ (zpt A) (zpt B) (zpt C) (zpt D) := by
  have hiff := intersectsF_eq_one_iff gb hgb A B C D hA1 hA2 hB1 hB2 hC1 hC2 hD1 hD2 hAB hCD
  rw [hiff]
  constructor
  · intro h
    exact segIntersect_of_disj h hAB hCD
  · intro h
    by_cases h0 : memSegQ (zpt A) (zpt B) (qp (zpt C))
    · exact Or.inr (Or.inl h0)
    by_cases h1 : memSegQ (zpt A) (zpt B) (qp (zpt D))
    · exact Or.inr (Or.inr (Or.inl h1))
    by_cases h2 : memSegQ (zpt C) (zpt D) (qp (zpt A))
    · exact Or.inr (Or.inr (Or.inr (Or.inl h2)))
    by_cases h3 : memSegQ (zpt C) (zpt D) (qp (zpt B))
    · exact Or.inr (Or.inr (Or.inr (Or.inr h3)))
    have hw := orient_ne_of_intersect (zpt A) (zpt B) (zpt C) (zpt D)
      (zpt_ne hAB) (zpt_ne hCD) h h0 h1 h2
    have hs := orient_ne_of_intersect (zpt C) (zpt D) (zpt A) (zpt B)
      (zpt_ne hCD) (zpt_ne hAB) (segIntersectQ_symm h) h2 h3 h0
    exact Or.inl ⟨hw, hs⟩

theorem intersectsF_zero_iff_not_segIntersect (gb : ℕ) (hgb : gb ≤ 126) (A B C D : ℕ × ℕ)
    (hA1 : A.1 < 2 ^ gb) (hA2 : A.2 < 2 ^ gb) (hB1 : B.1 < 2 ^ gb) (hB2 : B.2 < 2 ^ gb)
    (hC1 : C.1 < 2 ^ gb) (hC2 : C.2 < 2 ^ gb) (hD1 : D.1 < 2 ^ gb) (hD2 : D.2 < 2 ^ gb)
    (hAB : A ≠ B) (hCD : C ≠ D) :
    intersectsF gb (A, B) (C, D) = 0 ↔ ¬ segIntersectQ (zpt A) (zpt B) (zpt C) (zpt D) := by
  have hiff := intersectsF_one_iff_segIntersect gb hgb A B C D hA1 hA2 hB1 hB2 hC1 hC2
    hD1 hD2 hAB hCD
  rcases intersectsF_zero_or_one gb (A, B) (C, D) with h0 | h0 <;>
    rw [h0] <;> rw [h0] at hiff
  · constructor
    · intro _ hseg
      exact absurd (hiff.mpr hseg) (by norm_num)
    · intro _
      rfl
  · have hseg := hiff.mp rfl
    constructor
    · intro h
      exact absurd h (by norm_num)
    · intro hns
      exact absurd hseg hns

/-! Ray-edge crossing analysis for RayTracing. -/

theorem ray_edge_iff_Z (px py : ℤ) (a b : ℤ × ℤ) (hpx : 0 < px)
    (ha1 : 0 ≤ a.1) (hb1 : 0 ≤ b.1) (hay : a.2 ≠ py) (hby : b.2 ≠ py) :
    segIntersectQ (0, py) (px, py) a b ↔ rayCrossesEdge (px, py) a b := by
  have hpxq : (0 : ℚ) < (px : ℚ) := by exact_mod_cast hpx
  unfold rayCrossesEdge
  simp only
  constructor
  · rintro ⟨q, hqr, hqe⟩
    obtain ⟨t, ht0, ht1, hqt⟩ := (memSegQ_iff (0, py) (px, py) q).mp hqr
    obtain ⟨u, hu0, hu1, hqu⟩ := (memSegQ_iff a b q).mp hqe
    have hq2 : q.2 = (py : ℚ) := by
      rw [hqt]
      unfold pointOn
      simp
    have hq1 : q.1 = t * (px : ℚ) := by
      rw [hqt]
      unfold pointOn
      push_cast
      ring
    have hq1le : q.1 ≤ (px : ℚ) := by
      rw [hq1]
      nlinarith
    have hqux := congrArg Prod.fst hqu
    have hquy := congrArg Prod.snd hqu
    simp only [pointOn] at hqux hquy
    rw [hq2] at hquy
    have hne : (b.2 : ℚ) - (a.2 : ℚ) ≠ 0 := by
      intro h
      rw [h, mul_zero, add_zero] at hquy
      exact hay (by exact_mod_cast hquy.symm)
    have hu' : u = ((py : ℚ) - (a.2 : ℚ)) / ((b.2 : ℚ) - (a.2 : ℚ)) := by
      rw [eq_div_iff hne]
      linarith
    have hune0 : u ≠ 0 := by
      intro h
      rw [h, zero_mul, add_zero] at hquy
      exact hay (by exact_mod_cast hquy.symm)
    have hune1 : u ≠ 1 := by
      intro h
      rw [h, one_mul] at hquy
      have hb : (py : ℚ) = (b.2 : ℚ) := by linarith
      exact hby (by exact_mod_cast hb.symm)
    have hu0s : 0 < u := lt_of_le_of_ne hu0 (Ne.symm hune0)
    have hu1s : u < 1 := lt_of_le_of_ne hu1 hune1
    have hxstar : (a.1 : ℚ) + ((py : ℚ) - (a.2 : ℚ)) / ((b.2 : ℚ) - (a.2 : ℚ)) *
        ((b.1 : ℚ) - (a.1 : ℚ)) ≤ (px : ℚ) := by
      rw [← hu']
      linarith [hqux.symm, hq1le]
    have hzne : a.2 ≠ b.2 := by
      intro h
      exact hne (by rw [h]; ring)
    rcases lt_or_gt_of_ne hzne with hlt | hlt
    · have h1 : (a.2 : ℚ) < (b.2 : ℚ) := by exact_mod_cast hlt
      have hpy1 : (a.2 : ℚ) < (py : ℚ) := by nlinarith
      have hpy2 : (py : ℚ) < (b.2 : ℚ) := by nlinarith
      exact ⟨Or.inl ⟨by exact_mod_cast hpy1, by exact_mod_cast hpy2⟩, hxstar⟩
    · have h1 : (b.2 : ℚ) < (a.2 : ℚ) := by exact_mod_cast hlt
      have hpy1 : (b.2 : ℚ) < (py : ℚ) := by nlinarith
      have hpy2 : (py : ℚ) < (a.2 : ℚ) := by nlinarith
      exact ⟨Or.inr ⟨by exact_mod_cast hpy1, by exact_mod_cast hpy2⟩, hxstar⟩
  · rintro ⟨hst, hxle⟩
    have hne : (b.2 : ℚ) - (a.2 : ℚ) ≠ 0 := by
      rcases hst with ⟨h1, h2⟩ | ⟨h1, h2⟩
      · have : (a.2 : ℚ) < (b.2 : ℚ) := by exact_mod_cast lt_trans h1 h2
        linarith
      · have : (b.2 : ℚ) < (a.2 : ℚ) := by exact_mod_cast lt_trans h1 h2
        linarith
    set u : ℚ := ((py : ℚ) - (a.2 : ℚ)) / ((b.2 : ℚ) - (a.2 : ℚ)) with hudef
    have hu01 : 0 ≤ u ∧ u ≤ 1 := by
      rcases hst with ⟨h1, h2⟩ | ⟨h1, h2⟩
      · have hq1 : (a.2 : ℚ) < (py : ℚ) := by exact_mod_cast h1
        have hq2 : (py : ℚ) < (b.2 : ℚ) := by exact_mod_cast h2
        have hpos : (0 : ℚ) < (b.2 : ℚ) - (a.2 : ℚ) := by linarith
        constructor
        · exact div_nonneg (by linarith) (le_of_lt hpos)
        · rw [hudef, div_le_one hpos]; linarith
      · have hq1 : (b.2 : ℚ) < (py : ℚ) := by exact_mod_cast h1
        have hq2 : (py : ℚ) < (a.2 : ℚ) := by exact_mod_cast h2
        have hpos : (0 : ℚ) < (a.2 : ℚ) - (b.2 : ℚ) := by linarith
        have heq : u = ((a.2 : ℚ) - (py : ℚ)) / ((a.2 : ℚ) - (b.2 : ℚ)) := by
          rw [hudef, show (a.2 : ℚ) - (b.2 : ℚ) = -((b.2 : ℚ) - (a.2 : ℚ)) by ring,
            show (a.2 : ℚ) - (py : ℚ) = -((py : ℚ) - (a.2 : ℚ)) by ring, neg_div_neg_eq]
        constructor
        · rw [heq]; exact div_nonneg (by linarith) (le_of_lt hpos)
        · rw [heq, div_le_one hpos]; linarith
    set q : ℚ × ℚ := pointOn a b u with hqdef
    have hq2 : q.2 = (py : ℚ) := by
      show (a.2 : ℚ) + u * ((b.2 : ℚ) - (a.2 : ℚ)) = (py : ℚ)
      rw [hudef]
      field_simp
    have hq1 : q.1 = (a.1 : ℚ) + u * ((b.1 : ℚ) - (a.1 : ℚ)) := rfl
    have hq1n : 0 ≤ q.1 := by
      rw [hq1]
      have ha1q : (0 : ℚ) ≤ (a.1 : ℚ) := by exact_mod_cast ha1
      have hb1q : (0 : ℚ) ≤ (b.1 : ℚ) := by exact_mod_cast hb1
      nlinarith [hu01.1, hu01.2]
    have hq1le : q.1 ≤ (px : ℚ) := by
      rw [hq1, hudef]
      exact hxle
    refine ⟨q, (memSegQ_iff _ _ q).mpr ⟨q.1 / (px : ℚ), ?_, ?_, ?_⟩,
      (memSegQ_iff a b q).mpr ⟨u, hu01.1, hu01.2, rfl⟩⟩
    · exact div_nonneg hq1n (le_of_lt hpxq)
    · rw [div_le_one hpxq]; exact hq1le
    · apply Prod.ext
      · show q.1 = ((0, py) : ℤ × ℤ).1 + q.1 / (px : ℚ) * (((px, py) : ℤ × ℤ).1 - ((0, py) : ℤ × ℤ).1)
        simp only
        push_cast
        field_simp
      · show q.2 = ((0, py) : ℤ × ℤ).2 + q.1 / (px : ℚ) * (((px, py) : ℤ × ℤ).2 - ((0, py) : ℤ × ℤ).2)
        simp only
        push_cast
        rw [hq2]
        ring

/-- C1: for an 8-vertex polygon with coordinates in `[0, 2^grid_bits)`, no
vertex x-coordinate zero and non-degenerate edges, and a point with nonzero
x-coordinate whose y-coordinate differs from every vertex's, the RayTracing
output equals the textbook even-odd ray-casting result (1 inside, 0
outside). -/
theorem rayTracing_matches_even_odd (gb : ℕ) (hgb : gb ≤ 126) (point : ℕ × ℕ)
    (polygon : Fin 8 → ℕ × ℕ)
    (hvr : ∀ i, (polygon i).1 < 2 ^ gb ∧ (polygon i).2 < 2 ^ gb)
    (hp1 : point.1 < 2 ^ gb) (hp2 : point.2 < 2 ^ gb)
    (hpx : point.1 ≠ 0)
    (hvx : ∀ i, (polygon i).1 ≠ 0)
    (hy : ∀ i, (polygon i).2 ≠ point.2)
    (hedges : ∀ i : Fin 8, polygon i ≠ polygon (i + 1)) :
    rayTracingF 8 gb point polygon =
      if textbookEvenOdd 8 (zpt point) (fun i => zpt (polygon i)) then 1 else 0 := by
  have hplt : point.2 < pBN := lt_trans hp2 (two_pow_lt_pBN hgb)
  have hvlt : ∀ i : Fin 8, (polygon i).2 < pBN :=
    fun i => lt_trans (hvr i).2 (two_pow_lt_pBN hgb)
  unfold rayTracingF
  simp only
  have hmne : multiplierNF (List.ofFn fun i : Fin 8 => fsub (polygon i).2 point.2) ≠ 0 := by
    apply multiplierNF_ne_zero
    intro x hx
    rw [List.mem_ofFn] at hx
    obtain ⟨i, hi⟩ := hx
    rw [← hi]
    exact ⟨fsub_lt _ _, fun h => hy i ((fsub_eq_zero_iff (hvlt i) hplt).mp h)⟩
  rw [isZeroF_eq_zero_iff.mpr hmne, fsub_one_zero]
  have hAB : ((0 : ℕ), point.2) ≠ (point.1, point.2) := by
    intro h
    exact hpx (congrArg Prod.fst h).symm
  have hfi : ∀ i : Fin 8,
      intersectsF gb ((0, point.2), (point.1, point.2)) (polygon i, polygon (i + 1)) =
        if rayCrossesEdge (zpt point) (zpt (polygon i)) (zpt (polygon (i + 1))) then 1
        else 0 := by
    intro i
    have hiff := intersectsF_one_iff_segIntersect gb hgb (0, point.2) (point.1, point.2)
      (polygon i) (polygon (i + 1)) (Nat.pos_pow_of_pos gb (by norm_num)) hp2 hp1 hp2
      (hvr i).1 (hvr i).2 (hvr (i + 1)).1 (hvr (i + 1)).2 hAB (hedges i)
    have h0eq : zpt ((0 : ℕ), point.2) = ((0 : ℤ), (point.2 : ℤ)) := by
      unfold zpt
      simp
    have hconv : segIntersectQ (zpt (0, point.2)) (zpt (point.1, point.2))
        (zpt (polygon i)) (zpt (polygon (i + 1))) ↔
        rayCrossesEdge (zpt point) (zpt (polygon i)) (zpt (polygon (i + 1))) := by
      rw [h0eq]
      have hzp : zpt (point.1, point.2) = ((point.1 : ℤ), (point.2 : ℤ)) := rfl
      rw [hzp]
      apply ray_edge_iff_Z
      · exact_mod_cast Nat.pos_of_ne_zero hpx
      · exact Int.natCast_nonneg _
      · exact Int.natCast_nonneg _
      · exact fun h => hy i (by
          have h2 : ((polygon i).2 : ℤ) = (point.2 : ℤ) := h
          exact_mod_cast h2)
      · exact fun h => hy (i + 1) (by
          have h2 : ((polygon (i + 1)).2 : ℤ) = (point.2 : ℤ) := h
          exact_mod_cast h2)
    rcases intersectsF_zero_or_one gb ((0, point.2), (point.1, point.2))
      (polygon i, polygon (i + 1)) with h0 | h0 <;> rw [h0] <;> split_ifs with hc
    · have h1 := hiff.mpr (hconv.mpr hc)
      rw [h0] at h1
      exact absurd h1 (by norm_num)
    · rfl
    · rfl
    · exact absurd (hconv.mp (hiff.mp h0)) hc
  rw [congrArg List.ofFn (funext hfi), List.sum_ofFn]
  rw [Finset.sum_boole]
  have hcard_le : (Finset.univ.filter fun i : Fin 8 =>
      rayCrossesEdge (zpt point) (zpt (polygon i)) (zpt (polygon (i + 1)))).card ≤ 8 :=
    le_trans (Finset.card_filter_le _ _) (le_of_eq (by simp))
  rw [Nat.cast_id, Nat.mod_eq_of_lt (lt_of_le_of_lt hcard_le (by unfold pBN; norm_num))]
  rw [fmul_one_right (lt_of_le_of_lt (le_trans (Nat.mod_le _ _) hcard_le)
    (by unfold pBN; norm_num))]
  unfold textbookEvenOdd
  simp only
  split_ifs with h
  · exact Nat.odd_iff.mp h
  · rw [Nat.odd_iff] at h
    omega

/-! Symmetry of Intersects, OnSegment characterization, SimplePolygon
index bookkeeping. -/

theorem fmul_comm (a b : ℕ) : fmul a b = fmul b a := by
  unfold fmul
  rw [Nat.mul_comm]

theorem intersectsF_comm (gb : ℕ) (l1 l2 : (ℕ × ℕ) × (ℕ × ℕ)) :
    intersectsF gb l1 l2 = intersectsF gb l2 l1 := by
  unfold intersectsF
  simp only
  rw [fmul_comm
      (fsub (orientationF l2.1 l2.2 l1.1) (orientationF l2.1 l2.2 l1.2))
      (fsub (orientationF l1.1 l1.2 l2.1) (orientationF l1.1 l1.2 l2.2)),
    fmul_comm
      (fmul (fsub (orientationF l2.1 l2.2 l1.1 + 1) (inRectF gb l2 l1.1))
        (fsub (orientationF l2.1 l2.2 l1.2 + 1) (inRectF gb l2 l1.2)))
      (fmul (fsub (orientationF l1.1 l1.2 l2.1 + 1) (inRectF gb l1 l2.1))
        (fsub (orientationF l1.1 l1.2 l2.2 + 1) (inRectF gb l1 l2.2)))]

theorem indicator_eq_one_iff (P : Prop) [Decidable P] : (if P then 1 else 0) = 1 ↔ P := by
  split_ifs with h <;> simp [h]

theorem onSegmentF_one_iff (gb : ℕ) (hgb : gb ≤ 126) (A B P : ℕ × ℕ)
    (hA1 : A.1 < 2 ^ gb) (hA2 : A.2 < 2 ^ gb) (hB1 : B.1 < 2 ^ gb)
    (hB2 : B.2 < 2 ^ gb) (hP1 : P.1 < 2 ^ gb) (hP2 : P.2 < 2 ^ gb) (hAB : A ≠ B) :
    onSegmentF gb (A, B) P = 1 ↔ memSegQ (zpt A) (zpt B) (qp (zpt P)) := by
  unfold onSegmentF
  simp only
  rw [orientationF_eq gb hgb A B P hA1 hA2 hB1 hB2 hP1 hP2,
    inRectF_eq gb hgb A B P hA1 hA2 hB1 hB2 hP1 hP2]
  rw [show isZeroF (orientZ (zpt A) (zpt B) (zpt P)) =
      if orientZ (zpt A) (zpt B) (zpt P) = 0 then 1 else 0 from rfl]
  rw [fmul_indicator, indicator_eq_one_iff, orientZ_zero_iff]
  exact (memSegQ_char (zpt A) (zpt B) (zpt P) (zpt_ne hAB)).symm

theorem fsub_self (x : ℕ) : fsub x x = 0 := by
  unfold fsub
  rw [Nat.add_sub_cancel_left, Nat.mod_self]

theorem orientZ_of_zero {a b c : ℤ × ℤ} (h : crossZ a b c = 0) : orientZ a b c = 0 := by
  unfold orientZ
  rw [if_pos h]

theorem orientZ_of_pos {a b c : ℤ × ℤ} (h : 0 < crossZ a b c) : orientZ a b c = 1 := by
  unfold orientZ
  rw [if_neg (by omega), if_pos h]

theorem orientZ_of_neg {a b c : ℤ × ℤ} (h : crossZ a b c < 0) : orientZ a b c = 2 := by
  unfold orientZ
  rw [if_neg (by omega), if_neg (by omega)]

theorem crossZ_swap (a b c : ℤ × ℤ) : crossZ a c b = -crossZ a b c := by
  unfold crossZ
  ring

/-- C5: if some polygon vertex has the same y-coordinate as the test point,
the `not_on_vertex_line` gate of `RayTracing` forces the output to 0,
regardless of the point's true inside/outside status. -/
theorem rayTracing_vertex_line_zero (n gb : ℕ) [NeZero n] (point : ℕ × ℕ)
    (polygon : Fin n → ℕ × ℕ) (i : Fin n) (hi : (polygon i).2 = point.2) :
    rayTracingF n gb point polygon = 0 := by
  unfold rayTracingF
  simp only
  have hz : (0 : ℕ) ∈ List.ofFn fun j : Fin n => fsub (polygon j).2 point.2 := by
    rw [List.mem_ofFn]
    refine ⟨i, ?_⟩
    show fsub (polygon i).2 point.2 = 0
    rw [hi]
    exact fsub_self _
  rw [multiplierNF_zero_mem _ hz,
    show isZeroF 0 = 1 from rfl, fsub_self_one, fmul_zero_right]

theorem rayTracing_vertex_line_zero_witness :
    (octA 3).2 = ((3 : ℕ), (16 : ℕ)).2 ∧ rayTracingF 8 5 (3, 16) octA = 0 :=
  ⟨by decide, rayTracing_vertex_line_zero 8 5 (3, 16) octA 3 (by decide)⟩

/-- C7: for coordinates below `2^grid_bits` with `grid_bits ≤ 126`,
`Orientation(p0,p1,p2)` and `Orientation(p0,p2,p1)` report opposite non-zero
classes on non-collinear triples, and both report 0 on collinear triples. -/
theorem orientation_antisymmetry (gb : ℕ) (hgb : gb ≤ 126) (p0 p1 p2 : ℕ × ℕ)
    (h01 : p0.1 < 2 ^ gb) (h02 : p0.2 < 2 ^ gb) (h11 : p1.1 < 2 ^ gb)
    (h12 : p1.2 < 2 ^ gb) (h21 : p2.1 < 2 ^ gb) (h22 : p2.2 < 2 ^ gb) :
    (crossZ (zpt p0) (zpt p1) (zpt p2) ≠ 0 →
      (orientationF p0 p1 p2 = 1 ∧ orientationF p0 p2 p1 = 2) ∨
      (orientationF p0 p1 p2 = 2 ∧ orientationF p0 p2 p1 = 1)) ∧
    (crossZ (zpt p0) (zpt p1) (zpt p2) = 0 →
      orientationF p0 p1 p2 = 0 ∧ orientationF p0 p2 p1 = 0) := by
  rw [orientationF_eq gb hgb p0 p1 p2 h01 h02 h11 h12 h21 h22,
    orientationF_eq gb hgb p0 p2 p1 h01 h02 h21 h22 h11 h12]
  constructor
  · intro hne
    rcases lt_trichotomy (crossZ (zpt p0) (zpt p1) (zpt p2)) 0 with h | h | h
    · refine Or.inr ⟨orientZ_of_neg h, orientZ_of_pos ?_⟩
      rw [crossZ_swap]
      omega
    · exact absurd h hne
    · refine Or.inl ⟨orientZ_of_pos h, orientZ_of_neg ?_⟩
      rw [crossZ_swap]
      omega
  · intro h0
    refine ⟨orientZ_of_zero h0, orientZ_of_zero ?_⟩
    rw [crossZ_swap, h0, neg_zero]

theorem orientation_antisymmetry_witness :
    (crossZ (zpt (1, 1)) (zpt (3, 2)) (zpt (2, 5)) ≠ 0 →
      (orientationF (1, 1) (3, 2) (2, 5) = 1 ∧ orientationF (1, 1) (2, 5) (3, 2) = 2) ∨
      (orientationF (1, 1) (3, 2) (2, 5) = 2 ∧ orientationF (1, 1) (2, 5) (3, 2) = 1)) ∧
    (crossZ (zpt (1, 1)) (zpt (3, 2)) (zpt (2, 5)) = 0 →
      orientationF (1, 1) (3, 2) (2, 5) = 0 ∧ orientationF (1, 1) (2, 5) (3, 2) = 0) :=
  orientation_antisymmetry 3 (by norm_num) (1, 1) (3, 2) (2, 5) (by decide) (by decide)
    (by decide) (by decide) (by decide) (by decide)

/-- C8: `Intersects` is symmetric in its two segment arguments — swapping
`line1` and `line2` never changes the output (here proved for all inputs,
in particular for the non-degenerate in-range segments of the claim). -/
theorem intersects_symmetric (gb : ℕ) (l1 l2 : (ℕ × ℕ) × (ℕ × ℕ)) :
    intersectsF gb l1 l2 = intersectsF gb l2 l1 :=
  intersectsF_comm gb l1 l2

/-- C2: for `grid_bits ≤ 126` and non-degenerate segments with coordinates
below `2^grid_bits`, `Intersects` outputs 1 when the closed segments share a
point (including endpoint touching and collinear overlap) and 0 otherwise. -/
theorem intersects_correct (gb : ℕ) (hgb : gb ≤ 126) (A B C D : ℕ × ℕ)
    (hA1 : A.1 < 2 ^ gb) (hA2 : A.2 < 2 ^ gb) (hB1 : B.1 < 2 ^ gb) (hB2 : B.2 < 2 ^ gb)
    (hC1 : C.1 < 2 ^ gb) (hC2 : C.2 < 2 ^ gb) (hD1 : D.1 < 2 ^ gb) (hD2 : D.2 < 2 ^ gb)
    (hAB : A ≠ B) (hCD : C ≠ D) :
    (segIntersectQ (zpt A) (zpt B) (zpt C) (zpt D) →
      intersectsF gb (A, B) (C, D) = 1) ∧
    (¬ segIntersectQ (zpt A) (zpt B) (zpt C) (zpt D) →
      intersectsF gb (A, B) (C, D) = 0) :=
  ⟨fun h => (intersectsF_one_iff_segIntersect gb hgb A B C D hA1 hA2 hB1 hB2 hC1 hC2
      hD1 hD2 hAB hCD).mpr h,
   fun h => (intersectsF_zero_iff_not_segIntersect gb hgb A B C D hA1 hA2 hB1 hB2 hC1 hC2
      hD1 hD2 hAB hCD).mpr h⟩

theorem intersects_correct_witness :
    ((1, 1) : ℕ × ℕ) ≠ (5, 5) ∧
    ((segIntersectQ (zpt (1, 1)) (zpt (5, 5)) (zpt (1, 5)) (zpt (5, 1)) →
        intersectsF 3 ((1, 1), (5, 5)) ((1, 5), (5, 1)) = 1) ∧
      (¬ segIntersectQ (zpt (1, 1)) (zpt (5, 5)) (zpt (1, 5)) (zpt (5, 1)) →
        intersectsF 3 ((1, 1), (5, 5)) ((1, 5), (5, 1)) = 0)) :=
  ⟨by decide,
   intersects_correct 3 (by norm_num) (1, 1) (5, 5) (1, 5) (5, 1) (by decide) (by decide)
     (by decide) (by decide) (by decide) (by decide) (by decide) (by decide)
     (by decide) (by decide)⟩

theorem rayTracing_matches_even_odd_witness :
    ((10 : ℕ), (12 : ℕ)).1 ≠ 0 ∧
    rayTracingF 8 5 (10, 12) octA =
      if textbookEvenOdd 8 (zpt (10, 12)) (fun i => zpt (octA i)) then 1 else 0 :=
  ⟨by decide,
   rayTracing_matches_even_odd 5 (by norm_num) (10, 12) octA (by decide) (by decide)
     (by decide) (by decide) (by decide) (by decide) (by decide)⟩

/-! Satisfiability of the assertion constraints (claims C4, C9, C10). -/

theorem two_pow_253_lt_pBN : 2 ^ 253 < pBN := by decide

theorem compCheckSat_iff (gb c : ℕ) (hgb : gb ≤ 253) (hc : c < pBN) :
    compCheckSat gb c ↔ c < 2 ^ gb := by
  unfold compCheckSat Num2Bits254Rel compConstantF
  have hone : 1 ≤ 2 ^ gb := Nat.one_le_two_pow
  constructor
  · rintro ⟨v, ⟨hv254, hvmod⟩, hcomp⟩
    have hvle : ¬ (2 ^ gb - 1 < v) := by
      by_contra h
      rw [if_pos h] at hcomp
      exact one_ne_zero hcomp
    rw [Nat.mod_eq_of_lt hc] at hvmod
    have hcases : v = c ∨ v = c + pBN := by
      rcases Nat.lt_or_ge v pBN with h | h
      · left
        rw [← hvmod, Nat.mod_eq_of_lt h]
      · right
        have h2 : v - pBN < pBN := by
          have := two_pow_254_lt_two_pBN
          omega
        have h3 : v % pBN = (v - pBN) % pBN := by
          conv_lhs => rw [show v = v - pBN + pBN by omega]
          rw [Nat.add_mod_right]
        rw [h3, Nat.mod_eq_of_lt h2] at hvmod
        omega
    rcases hcases with rfl | rfl
    · omega
    · have h4 : (2 : ℕ) ^ gb ≤ 2 ^ 253 := Nat.pow_le_pow_right (by norm_num) hgb
      have h5 := two_pow_253_lt_pBN
      omega
  · intro hlt
    refine ⟨c, ⟨lt_trans hc pBN_lt_two_pow_254, rfl⟩, ?_⟩
    rw [if_neg]
    omega

theorem nonzeroCheckSat_iff (c : ℕ) (hc : c < pBN) : nonzeroCheckSat c ↔ c ≠ 0 := by
  unfold nonzeroCheckSat
  rw [isZeroRel_iff hc]
  unfold isZeroF
  constructor
  · intro h h0
    rw [if_pos h0] at h
    exact one_ne_zero h.symm
  · intro h
    rw [if_neg h]

theorem segNondegenSat_iff (l : (ℕ × ℕ) × (ℕ × ℕ))
    (h11 : l.1.1 < pBN) (h12 : l.1.2 < pBN) (h21 : l.2.1 < pBN) (h22 : l.2.2 < pBN) :
    segNondegenSat l ↔ l.1 ≠ l.2 := by
  unfold segNondegenSat IsEqualRel
  constructor
  · rintro ⟨e0, e1, he0, he1, hprod⟩ heq
    rw [isZeroRel_iff (fsub_lt _ _)] at he0 he1
    have hx : l.1.1 = l.2.1 := by rw [heq]
    have hy : l.1.2 = l.2.2 := by rw [heq]
    rw [hx, fsub_self] at he0
    rw [hy, fsub_self] at he1
    rw [he0, he1, show isZeroF 0 = 1 from rfl, fmul_one_one] at hprod
    exact one_ne_zero hprod
  · intro hne
    refine ⟨isZeroF (fsub l.1.1 l.2.1), isZeroF (fsub l.1.2 l.2.2),
      (isZeroRel_iff (fsub_lt _ _)).mpr rfl, (isZeroRel_iff (fsub_lt _ _)).mpr rfl, ?_⟩
    have hcoord : l.1.1 ≠ l.2.1 ∨ l.1.2 ≠ l.2.2 := by
      by_contra hcon
      push_neg at hcon
      exact hne (Prod.ext_iff.mpr ⟨hcon.1, hcon.2⟩)
    rcases hcoord with h | h
    · have hd : fsub l.1.1 l.2.1 ≠ 0 := fun h0 => h ((fsub_eq_zero_iff h11 h21).mp h0)
      rw [show isZeroF (fsub l.1.1 l.2.1) = 0 from by unfold isZeroF; rw [if_neg hd],
        fmul_zero_left]
    · have hd : fsub l.1.2 l.2.2 ≠ 0 := fun h0 => h ((fsub_eq_zero_iff h12 h22).mp h0)
      rw [show isZeroF (fsub l.1.2 l.2.2) = 0 from by unfold isZeroF; rw [if_neg hd],
        fmul_zero_right]

/-- C4: the `RayTracing` range-check and nonzero-x assertion constraints are
satisfiable (by some prover-chosen hint values) exactly when every vertex
coordinate and both point coordinates, read as field elements, are below
`2^grid_bits` and every vertex x-coordinate is nonzero.  Equivalently, any
coordinate at `2^grid_bits` or above, or a zero vertex x-coordinate, makes
the constraint system unsatisfiable. -/
theorem rayTracing_range_checks_iff (n gb : ℕ) (point : ℕ × ℕ)
    (polygon : Fin n → ℕ × ℕ) (hgb : gb ≤ 253)
    (hv : ∀ i, (polygon i).1 < pBN ∧ (polygon i).2 < pBN)
    (hp1 : point.1 < pBN) (hp2 : point.2 < pBN) :
    rtRangeChecksSat n gb point polygon ↔
      ((∀ i, ((polygon i).1 < 2 ^ gb ∧ (polygon i).1 ≠ 0) ∧ (polygon i).2 < 2 ^ gb) ∧
        point.1 < 2 ^ gb ∧ point.2 < 2 ^ gb) := by
  unfold rtRangeChecksSat
  constructor
  · rintro ⟨hvs, hq1, hq2⟩
    refine ⟨fun i => ?_, (compCheckSat_iff gb _ hgb hp1).mp hq1,
      (compCheckSat_iff gb _ hgb hp2).mp hq2⟩
    obtain ⟨h1, h2, h3⟩ := hvs i
    exact ⟨⟨(compCheckSat_iff gb _ hgb (hv i).1).mp h1,
      (nonzeroCheckSat_iff _ (hv i).1).mp h2⟩,
      (compCheckSat_iff gb _ hgb (hv i).2).mp h3⟩
  · rintro ⟨hvs, hq1, hq2⟩
    refine ⟨fun i => ?_, (compCheckSat_iff gb _ hgb hp1).mpr hq1,
      (compCheckSat_iff gb _ hgb hp2).mpr hq2⟩
    obtain ⟨⟨h1, h2⟩, h3⟩ := hvs i
    exact ⟨(compCheckSat_iff gb _ hgb (hv i).1).mpr h1,
      (nonzeroCheckSat_iff _ (hv i).1).mpr h2,
      (compCheckSat_iff gb _ hgb (hv i).2).mpr h3⟩

theorem rayTracing_range_checks_iff_witness :
    rtRangeChecksSat 8 5 (10, 12) octA :=
  (rayTracing_range_checks_iff 8 5 (10, 12) octA (by norm_num) (by decide) (by decide)
    (by decide)).mpr (by decide)

/-- C9: the equality-product non-degeneracy constraints of `Intersects` on one
input segment are satisfiable exactly when the segment's endpoints differ in at
least one coordinate — a degenerate single-point segment makes the constraints
unsatisfiable, so it is rejected by construction. -/
theorem intersects_nondegen_iff (l : (ℕ × ℕ) × (ℕ × ℕ))
    (h11 : l.1.1 < pBN) (h12 : l.1.2 < pBN) (h21 : l.2.1 < pBN) (h22 : l.2.2 < pBN) :
    segNondegenSat l ↔ l.1 ≠ l.2 :=
  segNondegenSat_iff l h11 h12 h21 h22

theorem intersects_nondegen_iff_witness :
    segNondegenSat ((1, 2), (3, 2)) ∧ ¬ segNondegenSat ((4, 7), (4, 7)) :=
  ⟨(intersects_nondegen_iff ((1, 2), (3, 2)) (by decide) (by decide) (by decide)
      (by decide)).mpr (by decide),
   fun h => (intersects_nondegen_iff ((4, 7), (4, 7)) (by decide) (by decide) (by decide)
      (by decide)).mp h rfl⟩

/-- C10: the ray built by `RayTracing` runs from `(0, point.y)` to
`(point.x, point.y)`, so the `Intersects` non-degeneracy constraint on it is
satisfiable exactly when `point.x` is nonzero — even though the explicit
range check on the point's x-coordinate admits the value 0. -/
theorem ray_nondegen_forces_px (gb : ℕ) (point : ℕ × ℕ)
    (hp1 : point.1 < pBN) (hp2 : point.2 < pBN) :
    (segNondegenSat ((0, point.2), (point.1, point.2)) ↔ point.1 ≠ 0) ∧
    compCheckSat gb 0 := by
  constructor
  · rw [segNondegenSat_iff ((0, point.2), (point.1, point.2)) pBN_pos hp2 hp1 hp2]
    constructor
    · intro h h0
      exact h (by rw [h0])
    · exact fun h hpair => h (congrArg Prod.fst hpair).symm
  · refine ⟨0, ⟨by positivity, rfl⟩, ?_⟩
    unfold compConstantF
    rw [if_neg (Nat.not_lt_zero _)]

theorem ray_nondegen_forces_px_witness :
    ¬ segNondegenSat ((0, 3), (0, 3)) ∧ compCheckSat 32 0 := by
  have h := ray_nondegen_forces_px 32 (0, 3) (by decide) (by decide)
  exact ⟨fun hs => (h.1.mp hs) rfl, h.2⟩

/-- C3: the artifact handed to the verifier — a stored session record dumped
verbatim by `downloadAllProofs()` — carries the raw GNSS latitude and
longitude of the test point, and the verify-proof.js CLI reads them back and
reports them as the location; the spec's statement that the verifier never
receives the point does not hold for this implementation. -/
theorem verifier_receives_point (Proof : Type) (sessionId : String) (fix : GnssFix)
    (proof : Proof) (publicSignals : List String) (polygonName polygonHash : String) :
    downloadAllProofsPayload Proof
        [savedRecord Proof sessionId fix proof publicSignals polygonName polygonHash] =
      [savedRecord Proof sessionId fix proof publicSignals polygonName polygonHash] ∧
    verifierReportedLocation Proof
        (savedRecord Proof sessionId fix proof publicSignals polygonName polygonHash) =
      (fix.lat, fix.lon) :=
  ⟨rfl, rfl⟩

/-! Support for the SimplePolygon claim (C6). -/

theorem lessThanF_bool (k a b : ℕ) : lessThanF k a b = 0 ∨ lessThanF k a b = 1 := by
  unfold lessThanF
  rcases Nat.mod_two_eq_zero_or_one ((a + 2 ^ k - b) / 2 ^ k) with h | h <;> rw [h] <;> omega

theorem fmul_bool {a b : ℕ} (ha : a = 0 ∨ a = 1) (hb : b = 0 ∨ b = 1) :
    fmul a b = 0 ∨ fmul a b = 1 := by
  rcases ha with rfl | rfl <;> rcases hb with rfl | rfl <;>
    simp [fmul_zero_left, fmul_zero_right, fmul_one_one]

theorem inRectF_bool (gb : ℕ) (line : (ℕ × ℕ) × (ℕ × ℕ)) (point : ℕ × ℕ) :
    inRectF gb line point = 0 ∨ inRectF gb line point = 1 := by
  unfold inRectF
  simp only
  unfold lessEqThanF
  exact fmul_bool (fmul_bool (lessThanF_bool _ _ _) (lessThanF_bool _ _ _))
    (fmul_bool (lessThanF_bool _ _ _) (lessThanF_bool _ _ _))

theorem isZeroF_bool (a : ℕ) : isZeroF a = 0 ∨ isZeroF a = 1 := by
  unfold isZeroF
  split_ifs <;> simp

theorem onSegmentF_zero_or_one (gb : ℕ) (line : (ℕ × ℕ) × (ℕ × ℕ)) (P : ℕ × ℕ) :
    onSegmentF gb line P = 0 ∨ onSegmentF gb line P = 1 := by
  unfold onSegmentF
  exact fmul_bool (isZeroF_bool _) (inRectF_bool _ _ _)

theorem onSegmentF_zero_iff (gb : ℕ) (hgb : gb ≤ 126) (A B P : ℕ × ℕ)
    (hA1 : A.1 < 2 ^ gb) (hA2 : A.2 < 2 ^ gb) (hB1 : B.1 < 2 ^ gb)
    (hB2 : B.2 < 2 ^ gb) (hP1 : P.1 < 2 ^ gb) (hP2 : P.2 < 2 ^ gb) (hAB : A ≠ B) :
    onSegmentF gb (A, B) P = 0 ↔ ¬ memSegQ (zpt A) (zpt B) (qp (zpt P)) := by
  have hone := onSegmentF_one_iff gb hgb A B P hA1 hA2 hB1 hB2 hP1 hP2 hAB
  rcases onSegmentF_zero_or_one gb (A, B) P with h | h <;> rw [h] <;> rw [h] at hone
  · exact ⟨fun _ hm => absurd (hone.mpr hm) (by norm_num), fun _ => rfl⟩
  · exact ⟨fun h10 => absurd h10 (by norm_num), fun hnm => (hnm (hone.mp rfl)).elim⟩

theorem fsub_one_eq_one {x : ℕ} (hx : x = 0 ∨ x = 1) (h : fsub 1 x = 1) : x = 0 := by
  rcases hx with rfl | rfl
  · rfl
  · rw [fsub_self_one] at h
    exact absurd h (by norm_num)

theorem fsub_one_of_zero {x : ℕ} (h : x = 0) : fsub 1 x = 1 := by
  rw [h]
  exact fsub_one_zero

theorem vget_fin (polygon : Fin 8 → ℕ × ℕ) (i : Fin 8) : vget polygon i.val = polygon i := by
  unfold vget
  congr 1
  exact Fin.ext (Nat.mod_eq_of_lt i.isLt)

theorem fin8_val_add_one : ∀ i : Fin 8, ((i + 1 : Fin 8) : ℕ) = (i.val + 1) % 8 := by decide

theorem fin8_val_add_two : ∀ i : Fin 8, ((i + 2 : Fin 8) : ℕ) = (i.val + 2) % 8 := by decide

theorem vget_fin_one (polygon : Fin 8 → ℕ × ℕ) (i : Fin 8) :
    vget polygon (i.val + 1) = polygon (i + 1) := by
  unfold vget
  congr 1

theorem vget_fin_two (polygon : Fin 8 → ℕ × ℕ) (i : Fin 8) :
    vget polygon (i.val + 2) = polygon (i + 2) := by
  unfold vget
  congr 1

theorem fin8_succ_succ : ∀ i : Fin 8, i + 1 + 1 = i + 2 := by decide

theorem fin8_seven_one : ∀ i : Fin 8, i + 7 + 1 = i := by decide

theorem fin8_two_ne : ∀ i : Fin 8, i + 2 ≠ i ∧ i + 2 ≠ i + 1 := by decide

theorem fin8_ne_succ : ∀ i : Fin 8, i ≠ i + 1 ∧ i ≠ i + 2 := by decide

theorem fin8_cases : ∀ v e : Fin 8, v ≠ e → v ≠ e + 1 →
    e = v + 1 ∨ e + 2 = v ∨ nonAdjacentEdges (v + 7) e := by decide

theorem nonAdjPairs_sound :
    ∀ p ∈ nonAdjPairs, ∃ i j : Fin 8, i.val = p.1 ∧ j.val = p.2 ∧ nonAdjacentEdges i j := by
  decide

theorem nonAdjPairs_complete :
    ∀ i j : Fin 8, nonAdjacentEdges i j →
      (i.val, j.val) ∈ nonAdjPairs ∨ (j.val, i.val) ∈ nonAdjPairs := by
  decide

set_option maxHeartbeats 1600000 in
/-- C6: for an 8-vertex polygon with coordinates below `2^grid_bits`
(`grid_bits ≤ 126`) and non-degenerate edges, `SimplePolygon` outputs 1 iff
the polygon is simple: no two non-adjacent edges intersect and no vertex lies
on an edge it is not an endpoint of. -/
theorem simplePolygon_iff (gb : ℕ) (hgb : gb ≤ 126) (polygon : Fin 8 → ℕ × ℕ)
    (hvr : ∀ i, (polygon i).1 < 2 ^ gb ∧ (polygon i).2 < 2 ^ gb)
    (hedges : ∀ i : Fin 8, polygon i ≠ polygon (i + 1)) :
    simplePolygonF gb polygon = 1 ↔ simplePolygonProp polygon := by
  have hIiff : ∀ i j : Fin 8,
      (intersectsF gb (polygon i, polygon (i + 1)) (polygon j, polygon (j + 1)) = 0 ↔
        ¬ segIntersectQ (zpt (polygon i)) (zpt (polygon (i + 1)))
          (zpt (polygon j)) (zpt (polygon (j + 1)))) := fun i j =>
    intersectsF_zero_iff_not_segIntersect gb hgb (polygon i) (polygon (i + 1))
      (polygon j) (polygon (j + 1)) (hvr i).1 (hvr i).2 (hvr (i + 1)).1 (hvr (i + 1)).2
      (hvr j).1 (hvr j).2 (hvr (j + 1)).1 (hvr (j + 1)).2 (hedges i) (hedges j)
  have hedges2 : ∀ i : Fin 8, polygon (i + 1) ≠ polygon (i + 2) := by
    intro i
    have h := hedges (i + 1)
    rwa [fin8_succ_succ] at h
  have hSiffA : ∀ i : Fin 8,
      (onSegmentF gb (polygon i, polygon (i + 1)) (polygon (i + 2)) = 0 ↔
        ¬ memSegQ (zpt (polygon i)) (zpt (polygon (i + 1)))
          (qp (zpt (polygon (i + 2))))) := fun i =>
    onSegmentF_zero_iff gb hgb (polygon i) (polygon (i + 1)) (polygon (i + 2))
      (hvr i).1 (hvr i).2 (hvr (i + 1)).1 (hvr (i + 1)).2 (hvr (i + 2)).1 (hvr (i + 2)).2
      (hedges i)
  have hSiffB : ∀ i : Fin 8,
      (onSegmentF gb (polygon (i + 1), polygon (i + 2)) (polygon i) = 0 ↔
        ¬ memSegQ (zpt (polygon (i + 1))) (zpt (polygon (i + 2)))
          (qp (zpt (polygon i)))) := fun i =>
    onSegmentF_zero_iff gb hgb (polygon (i + 1)) (polygon (i + 2)) (polygon i)
      (hvr (i + 1)).1 (hvr (i + 1)).2 (hvr (i + 2)).1 (hvr (i + 2)).2 (hvr i).1 (hvr i).2
      (hedges2 i)
  unfold simplePolygonF
  simp only
  have hb1 : ∀ x ∈ nonAdjPairs.map fun ij =>
      fsub 1 (intersectsF gb (vget polygon ij.1, vget polygon (ij.1 + 1))
        (vget polygon ij.2, vget polygon (ij.2 + 1))), x = 0 ∨ x = 1 := by
    intro x hx
    rw [List.mem_map] at hx
    obtain ⟨ij, _, rfl⟩ := hx
    rcases intersectsF_zero_or_one gb (vget polygon ij.1, vget polygon (ij.1 + 1))
        (vget polygon ij.2, vget polygon (ij.2 + 1)) with h | h <;> rw [h]
    · exact Or.inr fsub_one_zero
    · exact Or.inl fsub_self_one
  have hb2 : ∀ x ∈ (List.range 8).flatMap fun i =>
      [fsub 1 (onSegmentF gb (vget polygon i, vget polygon (i + 1)) (vget polygon (i + 2))),
       fsub 1 (onSegmentF gb (vget polygon (i + 1), vget polygon (i + 2)) (vget polygon i))],
      x = 0 ∨ x = 1 := by
    intro x hx
    rw [List.mem_flatMap] at hx
    obtain ⟨i, _, hmem⟩ := hx
    simp only [List.mem_cons, List.not_mem_nil, or_false] at hmem
    rcases hmem with rfl | rfl
    · rcases onSegmentF_zero_or_one gb (vget polygon i, vget polygon (i + 1))
          (vget polygon (i + 2)) with h | h <;> rw [h]
      · exact Or.inr fsub_one_zero
      · exact Or.inl fsub_self_one
    · rcases onSegmentF_zero_or_one gb (vget polygon (i + 1), vget polygon (i + 2))
          (vget polygon i) with h | h <;> rw [h]
      · exact Or.inr fsub_one_zero
      · exact Or.inl fsub_self_one
  rw [multiplierNF_bool _ hb2, multiplierNF_bool _ hb1, fmul_indicator,
    indicator_eq_one_iff]
  constructor
  · rintro ⟨h2, h1⟩
    have h1' : ∀ p ∈ nonAdjPairs,
        intersectsF gb (vget polygon p.1, vget polygon (p.1 + 1))
          (vget polygon p.2, vget polygon (p.2 + 1)) = 0 := by
      intro p hp
      exact fsub_one_eq_one (intersectsF_zero_or_one gb _ _)
        (h1 _ (List.mem_map_of_mem _ hp))
    have h2' : ∀ k : ℕ, k < 8 →
        onSegmentF gb (vget polygon k, vget polygon (k + 1)) (vget polygon (k + 2)) = 0 ∧
        onSegmentF gb (vget polygon (k + 1), vget polygon (k + 2)) (vget polygon k) = 0 := by
      intro k hk
      constructor
      · refine fsub_one_eq_one (onSegmentF_zero_or_one gb _ _) (h2 _ ?_)
        rw [List.mem_flatMap]
        exact ⟨k, List.mem_range.mpr hk, by simp⟩
      · refine fsub_one_eq_one (onSegmentF_zero_or_one gb _ _) (h2 _ ?_)
        rw [List.mem_flatMap]
        exact ⟨k, List.mem_range.mpr hk, by simp⟩
    have hclause1 : ∀ i j : Fin 8, nonAdjacentEdges i j →
        ¬ segIntersectQ (zpt (polygon i)) (zpt (polygon (i + 1)))
          (zpt (polygon j)) (zpt (polygon (j + 1))) := by
      intro i j hij
      rcases nonAdjPairs_complete i j hij with hmem | hmem
      · have h0 := h1' _ hmem
        simp only [vget_fin, vget_fin_one] at h0
        rw [hIiff i j] at h0
        exact h0
      · have h0 := h1' _ hmem
        simp only [vget_fin, vget_fin_one] at h0
        rw [intersectsF_comm, hIiff i j] at h0
        exact h0
    refine ⟨hclause1, ?_⟩
    intro v e hv1 hv2 hmem
    unfold edgeZ at hmem
    simp only at hmem
    rcases fin8_cases v e hv1 hv2 with hcase | hcase | hcase
    · subst hcase
      obtain ⟨_, hB⟩ := h2' v.val v.isLt
      simp only [vget_fin, vget_fin_one, vget_fin_two] at hB
      rw [hSiffB v] at hB
      rw [fin8_succ_succ] at hmem
      exact hB hmem
    · subst hcase
      obtain ⟨hA, _⟩ := h2' e.val e.isLt
      simp only [vget_fin, vget_fin_one, vget_fin_two] at hA
      rw [hSiffA e] at hA
      exact hA hmem
    · have hseg : segIntersectQ (zpt (polygon (v + 7))) (zpt (polygon (v + 7 + 1)))
          (zpt (polygon e)) (zpt (polygon (e + 1))) := by
        refine ⟨qp (zpt (polygon v)), ?_, hmem⟩
        rw [fin8_seven_one v]
        exact memSegQ_right _ _
      exact hclause1 (v + 7) e hcase hseg
  · rintro ⟨hcl1, hcl2⟩
    constructor
    · intro x hx
      rw [List.mem_flatMap] at hx
      obtain ⟨k, hk, hmem2⟩ := hx
      rw [List.mem_range] at hk
      simp only [List.mem_cons, List.not_mem_nil, or_false] at hmem2
      rcases hmem2 with rfl | rfl
      · apply fsub_one_of_zero
        rw [show vget polygon k = polygon (⟨k, hk⟩ : Fin 8) from vget_fin polygon ⟨k, hk⟩,
          show vget polygon (k + 1) = polygon ((⟨k, hk⟩ : Fin 8) + 1) from
            vget_fin_one polygon ⟨k, hk⟩,
          show vget polygon (k + 2) = polygon ((⟨k, hk⟩ : Fin 8) + 2) from
            vget_fin_two polygon ⟨k, hk⟩,
          hSiffA ⟨k, hk⟩]
        exact hcl2 (⟨k, hk⟩ + 2) ⟨k, hk⟩ (fin8_two_ne _).1 (fin8_two_ne _).2
      · apply fsub_one_of_zero
        rw [show vget polygon k = polygon (⟨k, hk⟩ : Fin 8) from vget_fin polygon ⟨k, hk⟩,
          show vget polygon (k + 1) = polygon ((⟨k, hk⟩ : Fin 8) + 1) from
            vget_fin_one polygon ⟨k, hk⟩,
          show vget polygon (k + 2) = polygon ((⟨k, hk⟩ : Fin 8) + 2) from
            vget_fin_two polygon ⟨k, hk⟩,
          hSiffB ⟨k, hk⟩]
        have h2ne : (⟨k, hk⟩ : Fin 8) ≠ ⟨k, hk⟩ + 1 + 1 := by
          rw [fin8_succ_succ]
          exact (fin8_ne_succ _).2
        have hthis := hcl2 ⟨k, hk⟩ (⟨k, hk⟩ + 1) (fin8_ne_succ _).1 h2ne
        intro hm
        apply hthis
        show memSegQ (zpt (polygon (⟨k, hk⟩ + 1))) (zpt (polygon (⟨k, hk⟩ + 1 + 1)))
          (qp (zpt (polygon ⟨k, hk⟩)))
        rw [fin8_succ_succ]
        exact hm
    · intro x hx
      rw [List.mem_map] at hx
      obtain ⟨p, hp, rfl⟩ := hx
      apply fsub_one_of_zero
      obtain ⟨i, j, hi, hj, hnadj⟩ := nonAdjPairs_sound p hp
      rw [← hi, ← hj]
      simp only [vget_fin, vget_fin_one]
      rw [hIiff i j]
      exact hcl1 i j hnadj

theorem simplePolygon_iff_witness :
    (∀ i : Fin 8, octA i ≠ octA (i + 1)) ∧
    (simplePolygonF 5 octA = 1 ↔ simplePolygonProp octA) :=
  ⟨by decide,
   simplePolygon_iff 5 (by norm_num) octA (by decide) (by decide)⟩
